import Mathlib

/-!
Verification of the coordinate-mapping and greedy phylogenetic-placement
subsystems of the nextclade repository, as a shallow embedding in Lean.

Sources embedded:
* packages_rs/nextclade/src/translate/coord_map.rs (coordinate maps, CDS extraction)
* packages/nextclade/src/coord/coord_map_global.rs (global coordinate map with
  empty-range handling)
* packages_rs/nextclade/src/tree/tree_builder.rs (fine-tuning and knitting of
  new samples into the tree)

Machine integers (`usize`) are modelled as `Nat`; a panicking Rust operation
(slice/index out of bounds) is modelled by an `Option`-valued function
returning `none`.  Supporting types that live in repository files that are not
among the sources (the nucleotide alphabet, ranges, the mutation-set algebra,
the graph container) are modelled from the specification; each such definition
carries a doc comment starting with "Modelled from the spec".
-/

/-- Modelled from the spec: the nucleotide alphabet (io/nuc.rs is not among the
sources) is a small closed alphabet including at least A, C, G, T, N and the
gap, and exposes a gap predicate. -/
inductive Nuc where
  | A | C | G | T | N | Gap
deriving DecidableEq

/-- Modelled from the spec: the gap predicate on nucleotides. -/
def Nuc.is_gap : Nuc → Bool
  | .Gap => true
  | _ => false

/-- Number of non-gap letters of an aligned sequence (the "R" of the spec). -/
def nonGapCount (s : List Nuc) : Nat :=
  s.countP (fun n => ! n.is_gap)

theorem nonGapCount_nil : nonGapCount [] = 0 := rfl

theorem nonGapCount_cons (n : Nuc) (l : List Nuc) :
    nonGapCount (n :: l) = (if n.is_gap = true then 0 else 1) + nonGapCount l := by
  cases hn : n.is_gap <;> simp [nonGapCount, List.countP_cons, hn, Nat.add_comm]

/-- Loop body of `make_aln_to_ref_map` (coord_map.rs lines 15-35), written as
structural recursion.  The imperative loop keeps two pieces of state: the last
value pushed into `rev_coord_map` (`prev`; `none` while the table is empty) and
the running reference position `ref_pos`.  A gap column pushes the last pushed
value, or 0 when the table is still empty (`prev.getD 0`); a non-gap column
pushes `ref_pos` and increments it. -/
def make_aln_to_ref_go (prev : Option Nat) (ref_pos : Nat) : List Nuc → List Nat
  | [] => []
  | n :: rest =>
    if n.is_gap then
      (prev.getD 0) :: make_aln_to_ref_go (some (prev.getD 0)) ref_pos rest
    else
      ref_pos :: make_aln_to_ref_go (some ref_pos) (ref_pos + 1) rest

/-- `make_aln_to_ref_map` of coord_map.rs: the "alignment to reference"
coordinate table. -/
def make_aln_to_ref_map (ref_seq : List Nuc) : List Nat :=
  make_aln_to_ref_go none 0 ref_seq

/-- Loop body of `make_ref_to_aln_map` (coord_map.rs lines 41-52): `i` is the
index of the current column; a non-gap column appends its index. -/
def make_ref_to_aln_go (i : Nat) : List Nuc → List Nat
  | [] => []
  | n :: rest =>
    if n.is_gap then make_ref_to_aln_go (i + 1) rest
    else i :: make_ref_to_aln_go (i + 1) rest

/-- `make_ref_to_aln_map` of coord_map.rs: the "reference to alignment"
coordinate table. -/
def make_ref_to_aln_map (ref_seq : List Nuc) : List Nat :=
  make_ref_to_aln_go 0 ref_seq

theorem make_aln_to_ref_go_length (prev : Option Nat) (ref_pos : Nat) (s : List Nuc) :
    (make_aln_to_ref_go prev ref_pos s).length = s.length := by
  induction s generalizing prev ref_pos with
  | nil => rfl
  | cons n rest ih =>
    by_cases h : n.is_gap = true <;>
      simp [make_aln_to_ref_go, h, ih]

theorem make_ref_to_aln_go_length (i : Nat) (s : List Nuc) :
    (make_ref_to_aln_go i s).length = nonGapCount s := by
  induction s generalizing i with
  | nil => rfl
  | cons n rest ih =>
    by_cases h : n.is_gap = true <;>
      simp [make_ref_to_aln_go, nonGapCount, List.countP_cons, h, ih i.succ]

/-- Every value of the alignment-to-reference table is the non-gap count of the
corresponding prefix of the aligned reference, minus one (truncated); the state
invariant of the loop is `prev.getD 0 = ref_pos - 1`. -/
theorem make_aln_to_ref_go_getElem (s : List Nuc) :
    ∀ prev ref_pos, prev.getD 0 = ref_pos - 1 → ∀ i, i < s.length →
      (make_aln_to_ref_go prev ref_pos s)[i]? =
        some (ref_pos + nonGapCount (s.take (i + 1)) - 1) := by
  induction s with
  | nil => intro prev ref_pos _ i hi; simp at hi
  | cons n rest ih =>
    intro prev ref_pos hinv i hi
    by_cases hg : n.is_gap = true
    · cases i with
      | zero =>
        simp only [make_aln_to_ref_go, hg, if_true, List.getElem?_cons_zero,
          List.take_succ_cons, List.take_zero, nonGapCount_cons, nonGapCount_nil,
          hinv, Option.some.injEq]
        omega
      | succ i =>
        have hrest : i < rest.length := by simpa using hi
        have := ih (some (prev.getD 0)) ref_pos (by simpa using hinv) i hrest
        simp only [make_aln_to_ref_go, hg, if_true, List.getElem?_cons_succ]
        rw [this]
        simp [List.take_succ_cons, nonGapCount_cons, hg]
    · cases i with
      | zero =>
        simp only [make_aln_to_ref_go, hg, if_false, Bool.false_eq_true,
          List.getElem?_cons_zero, List.take_succ_cons, List.take_zero,
          nonGapCount_cons, nonGapCount_nil, Option.some.injEq]
        omega
      | succ i =>
        have hrest : i < rest.length := by simpa using hi
        have := ih (some ref_pos) (ref_pos + 1) (by simp) i hrest
        simp only [make_aln_to_ref_go, hg, if_false, Bool.false_eq_true,
          List.getElem?_cons_succ]
        rw [this]
        have heq : ref_pos + 1 + nonGapCount (rest.take (i + 1)) - 1 =
            ref_pos + nonGapCount ((n :: rest).take (i + 1 + 1)) - 1 := by
          simp only [List.take_succ_cons, nonGapCount_cons, hg, if_false,
            Bool.false_eq_true]
          omega
        rw [heq]

theorem make_aln_to_ref_map_getElem (s : List Nuc) (i : Nat) (hi : i < s.length) :
    (make_aln_to_ref_map s)[i]? = some (nonGapCount (s.take (i + 1)) - 1) := by
  have := make_aln_to_ref_go_getElem s none 0 (by simp) i hi
  simpa [make_aln_to_ref_map] using this

/-- Every entry of `make_ref_to_aln_go i0 s` is at least `i0`. -/
theorem make_ref_to_aln_go_le (s : List Nuc) :
    ∀ i0, ∀ x ∈ make_ref_to_aln_go i0 s, i0 ≤ x := by
  induction s with
  | nil => intro i0 x hx; simp [make_ref_to_aln_go] at hx
  | cons n rest ih =>
    intro i0 x hx
    by_cases hg : n.is_gap = true
    · simp only [make_ref_to_aln_go, hg, if_true] at hx
      exact Nat.le_of_succ_le (ih (i0 + 1) x hx)
    · simp only [make_ref_to_aln_go, hg, if_false, Bool.false_eq_true,
        List.mem_cons] at hx
      rcases hx with rfl | hx
      · exact Nat.le_refl _
      · exact Nat.le_of_succ_le (ih (i0 + 1) x hx)

theorem make_ref_to_aln_go_pairwise (s : List Nuc) :
    ∀ i0, List.Pairwise (· < ·) (make_ref_to_aln_go i0 s) := by
  induction s with
  | nil => intro i0; simp [make_ref_to_aln_go]
  | cons n rest ih =>
    intro i0
    by_cases hg : n.is_gap = true
    · simpa only [make_ref_to_aln_go, hg, if_true] using ih (i0 + 1)
    · simp only [make_ref_to_aln_go, hg, if_false, Bool.false_eq_true,
        List.pairwise_cons]
      exact ⟨fun x hx => Nat.lt_of_succ_le (make_ref_to_aln_go_le rest (i0 + 1) x hx),
        ih (i0 + 1)⟩

/-- The `j`-th entry of the reference-to-alignment table is `i0 + k` for the
index `k` of the `(j+1)`-th non-gap letter of `s`. -/
theorem make_ref_to_aln_go_getElem (s : List Nuc) :
    ∀ i0 j, j < nonGapCount s →
      ∃ k, k < s.length ∧ (make_ref_to_aln_go i0 s)[j]? = some (i0 + k) ∧
        nonGapCount (s.take (k + 1)) = j + 1 := by
  induction s with
  | nil => intro i0 j hj; simp [nonGapCount] at hj
  | cons n rest ih =>
    intro i0 j hj
    by_cases hg : n.is_gap = true
    · have hj' : j < nonGapCount rest := by
        rw [nonGapCount_cons, hg] at hj
        simpa using hj
      obtain ⟨k, hk, hget, hcnt⟩ := ih (i0 + 1) j hj'
      refine ⟨k + 1, by simpa using Nat.succ_lt_succ hk, ?_, ?_⟩
      · simp only [make_ref_to_aln_go, hg, if_true]
        rw [hget]; congr 1; omega
      · rw [List.take_succ_cons, nonGapCount_cons, hg]
        simpa using hcnt
    · cases j with
      | zero =>
        refine ⟨0, by simp, ?_, ?_⟩
        · simp [make_ref_to_aln_go, hg]
        · rw [List.take_succ_cons, List.take_zero, nonGapCount_cons]
          simp [hg, nonGapCount_nil]
      | succ j =>
        have hj' : j < nonGapCount rest := by
          rw [nonGapCount_cons] at hj
          simp only [hg, if_false, Bool.false_eq_true] at hj
          omega
        obtain ⟨k, hk, hget, hcnt⟩ := ih (i0 + 1) j hj'
        refine ⟨k + 1, by simpa using Nat.succ_lt_succ hk, ?_, ?_⟩
        · simp only [make_ref_to_aln_go, hg, if_false, Bool.false_eq_true,
            List.getElem?_cons_succ]
          rw [hget]; congr 1; omega
        · rw [List.take_succ_cons, nonGapCount_cons]
          simp only [hg, if_false, Bool.false_eq_true]
          omega

theorem make_aln_to_ref_map_length (s : List Nuc) :
    (make_aln_to_ref_map s).length = s.length :=
  make_aln_to_ref_go_length none 0 s

theorem make_ref_to_aln_map_length (s : List Nuc) :
    (make_ref_to_aln_map s).length = nonGapCount s :=
  make_ref_to_aln_go_length 0 s

/-- Non-gap prefix counts are monotone in the prefix length. -/
theorem nonGapCount_take_mono (s : List Nuc) {i j : Nat} (h : i ≤ j) :
    nonGapCount (s.take i) ≤ nonGapCount (s.take j) := by
  have : s.take i = (s.take j).take i := by rw [List.take_take, Nat.min_eq_left h]
  rw [this]
  exact List.Sublist.countP_le _ (List.take_sublist _ _)

theorem make_aln_to_ref_map_pairwise (s : List Nuc) :
    List.Pairwise (· ≤ ·) (make_aln_to_ref_map s) := by
  rw [List.pairwise_iff_getElem]
  intro i j hi hj hij
  have hi' : i < s.length := by rwa [make_aln_to_ref_map_length] at hi
  have hj' : j < s.length := by rwa [make_aln_to_ref_map_length] at hj
  have h1 := make_aln_to_ref_map_getElem s i hi'
  have h2 := make_aln_to_ref_map_getElem s j hj'
  rw [List.getElem?_eq_getElem hi] at h1
  rw [List.getElem?_eq_getElem hj] at h2
  simp only [Option.some.injEq, Nat.succ_eq_add_one] at h1 h2
  have := nonGapCount_take_mono s (show i + 1 ≤ j + 1 by omega)
  omega

/-- Composition: looking up a reference-to-alignment entry in the
alignment-to-reference table gives back the reference position. -/
theorem aln_to_ref_of_ref_to_aln (s : List Nuc) (j : Nat) (hj : j < nonGapCount s) :
    ∃ k, k < s.length ∧ (make_ref_to_aln_map s)[j]? = some k ∧
      (make_aln_to_ref_map s)[k]? = some j := by
  obtain ⟨k, hk, hget, hcnt⟩ := make_ref_to_aln_go_getElem s 0 j hj
  refine ⟨k, hk, by simpa [make_ref_to_aln_map] using hget, ?_⟩
  rw [make_aln_to_ref_map_getElem s k hk, hcnt]
  simp

/-- C1: for every aligned reference of length L with R non-gap letters, the
tables built by `make_aln_to_ref_map` and `make_ref_to_aln_map` satisfy:
the alignment-to-reference table has length L and the reference-to-alignment
table has length R; the former is non-decreasing; the latter is strictly
increasing; and composing the two maps at any j < R yields j again. -/
theorem coord_map_tables_c1 (s : List Nuc) :
    (make_aln_to_ref_map s).length = s.length ∧
    (make_ref_to_aln_map s).length = nonGapCount s ∧
    List.Pairwise (· ≤ ·) (make_aln_to_ref_map s) ∧
    List.Pairwise (· < ·) (make_ref_to_aln_map s) ∧
    (∀ j, j < nonGapCount s →
      ((make_ref_to_aln_map s)[j]?.bind fun k => (make_aln_to_ref_map s)[k]?) =
        some j) := by
  refine ⟨make_aln_to_ref_map_length s, make_ref_to_aln_map_length s,
    make_aln_to_ref_map_pairwise s, make_ref_to_aln_go_pairwise s 0, ?_⟩
  intro j hj
  obtain ⟨k, _, h1, h2⟩ := aln_to_ref_of_ref_to_aln s j hj
  rw [h1]
  simpa using h2

/-- C1 witness: the tables of the aligned reference `A-CA` compose back to the
identity at reference position 1. -/
theorem coord_map_tables_c1_witness :
    ((make_ref_to_aln_map [Nuc.A, Nuc.Gap, Nuc.C, Nuc.A])[1]?.bind fun k =>
      (make_aln_to_ref_map [Nuc.A, Nuc.Gap, Nuc.C, Nuc.A])[k]?) = some 1 :=
  (coord_map_tables_c1 [Nuc.A, Nuc.Gap, Nuc.C, Nuc.A]).2.2.2.2 1 (by decide)

/-! ### Ranges and coordinate maps -/

/-- Modelled from the spec: half-open ranges (utils/range.rs and
coord/range.rs are not among the sources).  Positions are non-negative
integers; a range is `[begin, end)`. -/
structure Range where
  begin : Nat
  «end» : Nat
deriving DecidableEq

/-- Modelled from the spec: a range is empty iff begin = end. -/
def Range.is_empty (r : Range) : Bool :=
  r.begin == r.«end»

/-- The `CoordMap` struct of coord_map.rs (lines 59-64). -/
structure CoordMap where
  aln_to_ref_table : List Nat
  ref_to_aln_table : List Nat
deriving DecidableEq

/-- `CoordMap::new` (coord_map.rs lines 68-73). -/
def CoordMap.new (ref_seq : List Nuc) : CoordMap :=
  { aln_to_ref_table := make_aln_to_ref_map ref_seq
    ref_to_aln_table := make_ref_to_aln_map ref_seq }

/-- `CoordMap::aln_to_ref_position`: a table lookup; the Rust indexing panic
is modelled as `none`. -/
def CoordMap.aln_to_ref_position (cm : CoordMap) (aln : Nat) : Option Nat :=
  cm.aln_to_ref_table[aln]?

/-- `CoordMap::ref_to_aln_position`: a table lookup; the Rust indexing panic
is modelled as `none`. -/
def CoordMap.ref_to_aln_position (cm : CoordMap) (reff : Nat) : Option Nat :=
  cm.ref_to_aln_table[reff]?

/-- Strand of a genomic feature. -/
inductive GeneStrand where
  | Forward
  | Reverse
deriving DecidableEq

/-- Modelled from the spec: a CDS segment (gene/cds.rs is not among the
sources): a half-open reference range with a strand.  Metadata fields unused
by the embedded functions (index, id, name, frame, exceptions, attributes)
are omitted. -/
structure CdsSegment where
  start : Nat
  «end» : Nat
  strand : GeneStrand
deriving DecidableEq

/-- Modelled from the spec: a CDS is a list of segments concatenated in list
order; metadata fields are omitted. -/
structure Cds where
  segments : List CdsSegment
deriving DecidableEq

/-- Modelled from the spec: a gene feature (gene/gene.rs is not among the
sources) with a half-open reference range, a strand and its CDS children;
metadata fields are omitted. -/
structure Gene where
  start : Nat
  «end» : Nat
  strand : GeneStrand
  cdses : List Cds

/-- `CoordMap::feature_aln_to_ref_position` (coord_map.rs lines 85-92).
The `usize` subtractions cannot underflow for in-feature relative positions;
they are modelled by truncated `Nat` subtraction. -/
def CoordMap.feature_aln_to_ref_position (cm : CoordMap) (feature : Gene)
    (aln_pos_rel : Nat) : Option Nat :=
  if feature.strand = GeneStrand.Reverse then
    (cm.ref_to_aln_position (feature.«end» - 1)).bind fun p =>
      cm.aln_to_ref_position (p - aln_pos_rel)
  else
    (cm.ref_to_aln_position feature.start).bind fun p =>
      cm.aln_to_ref_position (p + aln_pos_rel)

/-- `CoordMap::feature_ref_to_aln_position` (coord_map.rs lines 95-102). -/
def CoordMap.feature_ref_to_aln_position (cm : CoordMap) (feature : Gene)
    (ref_pos_rel : Nat) : Option Nat :=
  if feature.strand = GeneStrand.Reverse then
    cm.ref_to_aln_position (feature.«end» - 1 - ref_pos_rel)
  else
    cm.ref_to_aln_position (feature.start + ref_pos_rel)

/-- `CoordMap::aln_to_ref_range` (coord_map.rs lines 104-109).  The `usize`
subtraction `end - 1` underflows in Rust only for `end = 0`; it is modelled
by truncated `Nat` subtraction and every theorem below applies it to
non-empty ranges only. -/
def CoordMap.aln_to_ref_range (cm : CoordMap) (aln_range : Range) : Option Range :=
  (cm.aln_to_ref_table[aln_range.begin]?).bind fun b =>
    (cm.aln_to_ref_table[aln_range.«end» - 1]?).map fun e =>
      { begin := b, «end» := e + 1 }

/-- `CoordMap::ref_to_aln_range` (coord_map.rs lines 111-116). -/
def CoordMap.ref_to_aln_range (cm : CoordMap) (ref_range : Range) : Option Range :=
  (cm.ref_to_aln_table[ref_range.begin]?).bind fun b =>
    (cm.ref_to_aln_table[ref_range.«end» - 1]?).map fun e =>
      { begin := b, «end» := e + 1 }

/-- Models a Rust slice expression `&l[b..e]`; `none` is the panic on invalid
bounds. -/
def listSlice (l : List α) (b e : Nat) : Option (List α) :=
  if b ≤ e ∧ e ≤ l.length then some ((l.take e).drop b) else none

/-- Modelled from the spec: the nucleotide complement
(translate/complement.rs is not among the sources): defined for all non-gap
letters, gap maps to gap. -/
def Nuc.complement : Nuc → Nuc
  | .A => .T
  | .T => .A
  | .C => .G
  | .G => .C
  | .N => .N
  | .Gap => .Gap

/-- Modelled from the spec: `reverse_complement_in_place` reverses the
sequence and complements every letter. -/
def reverse_complement_in_place (nucs : List Nuc) : List Nuc :=
  nucs.reverse.map Nuc.complement

/-- `CoordMap::extract_cds_segment` (coord_map.rs lines 173-190). -/
def CoordMap.extract_cds_segment (cm : CoordMap) (full_aln_seq : List Nuc)
    (cds_segment : CdsSegment) : Option (List Nuc) :=
  let range_ref : Range := { begin := cds_segment.start, «end» := cds_segment.«end» }
  (cm.ref_to_aln_range range_ref).bind fun range_aln =>
    (listSlice full_aln_seq range_aln.begin range_aln.«end»).map fun nucs =>
      if cds_segment.strand = GeneStrand.Reverse then reverse_complement_in_place nucs
      else nucs

/-- `CoordMap::extract_cds` (coord_map.rs lines 164-170): flat concatenation
of the per-segment extractions in list order. -/
def CoordMap.extract_cds (cm : CoordMap) (full_aln_seq : List Nuc) (cds : Cds) :
    Option (List Nuc) :=
  (cds.segments.mapM (cm.extract_cds_segment full_aln_seq)).map List.flatten

/-- `CoordMap::extract_gene` (coord_map.rs lines 155-161): flat concatenation
of `extract_cds` over the gene's CDSes in list order. -/
def CoordMap.extract_gene (cm : CoordMap) (full_aln_seq : List Nuc) (gene : Gene) :
    Option (List Nuc) :=
  (gene.cdses.mapM (cm.extract_cds full_aln_seq)).map List.flatten

/-- The `CdsToAln` record of coord_map.rs (lines 201-207). -/
structure CdsToAln where
  global : List Nat
  start : Nat
  len : Nat
deriving DecidableEq

/-- Loop of `extract_cds_alignment` (coord_map.rs lines 209-223) over the CDS
segments, carrying the accumulated `cds_aln` sequence and `cds_to_aln`
records.  The segment lookups use `ref_to_aln_position` at `segment.start`
and at the half-open `segment.end`. -/
def extract_cds_alignment_go (cm : CoordMap) (seq_aln : List Nuc) :
    List CdsSegment → List Nuc → List CdsToAln → Option (List Nuc × List CdsToAln)
  | [], cds_aln, cds_to_aln => some (cds_aln, cds_to_aln)
  | segment :: rest, cds_aln, cds_to_aln =>
    (cm.ref_to_aln_position segment.start).bind fun start =>
      (cm.ref_to_aln_position segment.«end»).bind fun e =>
        (listSlice seq_aln start e).bind fun slice =>
          extract_cds_alignment_go cm seq_aln rest (cds_aln ++ slice)
            (cds_to_aln ++
              [{ global := List.range' start (e - start), start := cds_aln.length,
                 len := e - start }])

/-- `extract_cds_alignment` of coord_map.rs. -/
def extract_cds_alignment (seq_aln : List Nuc) (cds : Cds) (coord_map : CoordMap) :
    Option (List Nuc × List CdsToAln) :=
  extract_cds_alignment_go coord_map seq_aln cds.segments [] []

/-- The `CoordMapGlobal` struct of coord_map_global.rs (lines 13-18). -/
structure CoordMapGlobal where
  aln_to_ref_table : List Nat
  ref_to_aln_table : List Nat
  aln_to_qry_table : List Nat
deriving DecidableEq

/-- `CoordMapGlobal::new` (coord_map_global.rs lines 22-28). -/
def CoordMapGlobal.new (ref_seq_unstripped qry_seq_unstripped : List Nuc) :
    CoordMapGlobal :=
  { aln_to_ref_table := make_aln_to_ref_map ref_seq_unstripped
    ref_to_aln_table := make_ref_to_aln_map ref_seq_unstripped
    aln_to_qry_table := make_aln_to_ref_map qry_seq_unstripped }

/-- `CoordMapGlobal::aln_to_ref_position`. -/
def CoordMapGlobal.aln_to_ref_position (cm : CoordMapGlobal) (aln : Nat) : Option Nat :=
  cm.aln_to_ref_table[aln]?

/-- `CoordMapGlobal::ref_to_aln_position`. -/
def CoordMapGlobal.ref_to_aln_position (cm : CoordMapGlobal) (reff : Nat) : Option Nat :=
  cm.ref_to_aln_table[reff]?

/-- `CoordMapGlobal::ref_to_qry_position`: compose `ref_to_aln_position` with
the alignment-to-query table. -/
def CoordMapGlobal.ref_to_qry_position (cm : CoordMapGlobal) (reff : Nat) : Option Nat :=
  (cm.ref_to_aln_position reff).bind fun p => cm.aln_to_qry_table[p]?

/-- `CoordMapGlobal::aln_to_ref_range` (coord_map_global.rs lines 46-57): an
empty range maps to the empty range at the mapped begin; otherwise the
inclusive-end formula is used. -/
def CoordMapGlobal.aln_to_ref_range (cm : CoordMapGlobal) (aln_range : Range) :
    Option Range :=
  if aln_range.is_empty then
    (cm.aln_to_ref_position aln_range.begin).bind fun b =>
      (cm.aln_to_ref_position aln_range.begin).map fun b2 =>
        { begin := b, «end» := b2 }
  else
    (cm.aln_to_ref_position aln_range.begin).bind fun b =>
      (cm.aln_to_ref_position (aln_range.«end» - 1)).map fun e =>
        { begin := b, «end» := e + 1 }

/-- `CoordMapGlobal::ref_to_aln_range` (coord_map_global.rs lines 60-71). -/
def CoordMapGlobal.ref_to_aln_range (cm : CoordMapGlobal) (ref_range : Range) :
    Option Range :=
  if ref_range.is_empty then
    (cm.ref_to_aln_position ref_range.begin).bind fun b =>
      (cm.ref_to_aln_position ref_range.begin).map fun b2 =>
        { begin := b, «end» := b2 }
  else
    (cm.ref_to_aln_position ref_range.begin).bind fun b =>
      (cm.ref_to_aln_position (ref_range.«end» - 1)).map fun e =>
        { begin := b, «end» := e + 1 }

/-- `CoordMapGlobal::ref_to_qry_range` (coord_map_global.rs lines 74-85). -/
def CoordMapGlobal.ref_to_qry_range (cm : CoordMapGlobal) (ref_range : Range) :
    Option Range :=
  if ref_range.is_empty then
    (cm.ref_to_qry_position ref_range.begin).bind fun b =>
      (cm.ref_to_qry_position ref_range.begin).map fun b2 =>
        { begin := b, «end» := b2 }
  else
    (cm.ref_to_qry_position ref_range.begin).bind fun b =>
      (cm.ref_to_qry_position (ref_range.«end» - 1)).map fun e =>
        { begin := b, «end» := e + 1 }

/-! ### Round trips and empty ranges (C4, C5) -/

/-- Core round-trip fact about the two tables: looking up both endpoints of a
non-empty in-bounds reference range in the reference-to-alignment table
succeeds, the results are ordered and in bounds, and mapping them back through
the alignment-to-reference table recovers the endpoints. -/
theorem roundtrip_tables (s : List Nuc) (b e : Nat) (h1 : b < e)
    (h2 : e ≤ nonGapCount s) :
    ∃ kb ke, (make_ref_to_aln_map s)[b]? = some kb ∧
      (make_ref_to_aln_map s)[e - 1]? = some ke ∧ kb ≤ ke ∧ ke < s.length ∧
      kb < s.length ∧
      (make_aln_to_ref_map s)[kb]? = some b ∧
      (make_aln_to_ref_map s)[ke]? = some (e - 1) := by
  have hb : b < nonGapCount s := Nat.lt_of_lt_of_le h1 h2
  have he : e - 1 < nonGapCount s := by omega
  obtain ⟨kb, hkb_lt, hkb, hkb'⟩ := aln_to_ref_of_ref_to_aln s b hb
  obtain ⟨ke, hke_lt, hke, hke'⟩ := aln_to_ref_of_ref_to_aln s (e - 1) he
  refine ⟨kb, ke, hkb, hke, ?_, hke_lt, hkb_lt, hkb', hke'⟩
  rcases Nat.lt_or_ge b (e - 1) with hlt | hge
  · have hpw : List.Pairwise (· < ·) (make_ref_to_aln_map s) :=
      make_ref_to_aln_go_pairwise s 0
    rw [List.pairwise_iff_getElem] at hpw
    have hblen : b < (make_ref_to_aln_map s).length := by
      rwa [make_ref_to_aln_map_length]
    have helen : e - 1 < (make_ref_to_aln_map s).length := by
      rwa [make_ref_to_aln_map_length]
    have := hpw b (e - 1) hblen helen hlt
    rw [List.getElem?_eq_getElem hblen] at hkb
    rw [List.getElem?_eq_getElem helen] at hke
    simp only [Option.some.injEq] at hkb hke
    omega
  · have : b = e - 1 := by omega
    subst this
    rw [hkb] at hke
    simp only [Option.some.injEq] at hke
    omega

theorem CoordMapGlobal.new_ref_to_aln_position (s q : List Nuc) (i : Nat) :
    (CoordMapGlobal.new s q).ref_to_aln_position i = (make_ref_to_aln_map s)[i]? :=
  rfl

theorem CoordMapGlobal.new_aln_to_ref_position (s q : List Nuc) (i : Nat) :
    (CoordMapGlobal.new s q).aln_to_ref_position i = (make_aln_to_ref_map s)[i]? :=
  rfl

theorem CoordMap.new_ref_to_aln_table (s : List Nuc) :
    (CoordMap.new s).ref_to_aln_table = make_ref_to_aln_map s :=
  rfl

theorem CoordMap.new_aln_to_ref_table (s : List Nuc) :
    (CoordMap.new s).aln_to_ref_table = make_aln_to_ref_map s :=
  rfl

/-- C4: for every coordinate map built from an aligned reference and every
non-empty reference range whose endpoints denote existing reference
positions, converting to alignment space with `ref_to_aln_range` and back
with `aln_to_ref_range` yields the original range — both for the global
coordinate map (coord_map_global.rs) and for the older `CoordMap`
(coord_map.rs). -/
theorem range_roundtrip_c4 (s q : List Nuc) (r : Range)
    (h1 : r.begin < r.«end») (h2 : r.«end» ≤ nonGapCount s) :
    (((CoordMapGlobal.new s q).ref_to_aln_range r).bind
      ((CoordMapGlobal.new s q).aln_to_ref_range)) = some r ∧
    (((CoordMap.new s).ref_to_aln_range r).bind
      ((CoordMap.new s).aln_to_ref_range)) = some r := by
  obtain ⟨kb, ke, hkb, hke, hle, hkelen, hkblen, hkb', hke'⟩ :=
    roundtrip_tables s r.begin r.«end» h1 h2
  have hne : r.is_empty = false := by
    simp only [Range.is_empty, beq_eq_false_iff_ne, ne_eq]
    omega
  have hne2 : ({ begin := kb, «end» := ke + 1 : Range }).is_empty = false := by
    simp only [Range.is_empty, beq_eq_false_iff_ne, ne_eq]
    omega
  have hend : r.«end» - 1 + 1 = r.«end» := by omega
  constructor
  · simp only [CoordMapGlobal.ref_to_aln_range, CoordMapGlobal.aln_to_ref_range,
      CoordMapGlobal.new_ref_to_aln_position, CoordMapGlobal.new_aln_to_ref_position,
      hne, Bool.false_eq_true, if_false, hkb, hke, Option.some_bind,
      Option.map_some', Nat.add_sub_cancel]
    rw [hne2]
    rw [hkb', hke']
    simp [hend]
  · simp only [CoordMap.ref_to_aln_range, CoordMap.aln_to_ref_range,
      CoordMap.new_ref_to_aln_table, CoordMap.new_aln_to_ref_table, hkb, hke,
      Option.some_bind, Option.map_some', Nat.add_sub_cancel]
    rw [hkb', hke']
    simp [hend]

/-- C4 witness: round-tripping the range [0,2) through the maps of the
aligned reference `A-CA` gives it back. -/
theorem range_roundtrip_c4_witness :
    (((CoordMapGlobal.new [Nuc.A, Nuc.Gap, Nuc.C, Nuc.A] [Nuc.A, Nuc.A, Nuc.C, Nuc.A]).ref_to_aln_range
        { begin := 0, «end» := 2 }).bind
      ((CoordMapGlobal.new [Nuc.A, Nuc.Gap, Nuc.C, Nuc.A] [Nuc.A, Nuc.A, Nuc.C, Nuc.A]).aln_to_ref_range)) =
      some { begin := 0, «end» := 2 } :=
  (range_roundtrip_c4 [Nuc.A, Nuc.Gap, Nuc.C, Nuc.A] [Nuc.A, Nuc.A, Nuc.C, Nuc.A]
    { begin := 0, «end» := 2 } (by decide) (by decide)).1

/-- C5: for every global coordinate map and every empty range at an in-bounds
begin position, the three range conversions return the empty range at the
mapped begin position instead of applying the end−1 formula. -/
theorem empty_range_c5 (cm : CoordMapGlobal) (b : Nat) :
    (∀ m, cm.aln_to_ref_position b = some m →
      cm.aln_to_ref_range { begin := b, «end» := b } =
        some { begin := m, «end» := m }) ∧
    (∀ m, cm.ref_to_aln_position b = some m →
      cm.ref_to_aln_range { begin := b, «end» := b } =
        some { begin := m, «end» := m }) ∧
    (∀ m, cm.ref_to_qry_position b = some m →
      cm.ref_to_qry_range { begin := b, «end» := b } =
        some { begin := m, «end» := m }) := by
  have hemp : ({ begin := b, «end» := b : Range }).is_empty = true := by
    simp [Range.is_empty]
  refine ⟨fun m hm => ?_, fun m hm => ?_, fun m hm => ?_⟩
  · simp [CoordMapGlobal.aln_to_ref_range, hemp, hm]
  · simp [CoordMapGlobal.ref_to_aln_range, hemp, hm]
  · simp [CoordMapGlobal.ref_to_qry_range, hemp, hm]

/-- C5 witness: the empty range at reference position 0 of a concrete map is
sent to the empty range at its mapped begin by all three conversions. -/
theorem empty_range_c5_witness :
    (CoordMapGlobal.new [Nuc.Gap, Nuc.A] [Nuc.A, Nuc.A]).ref_to_aln_range
        { begin := 0, «end» := 0 } = some { begin := 1, «end» := 1 } :=
  ((empty_range_c5 (CoordMapGlobal.new [Nuc.Gap, Nuc.A] [Nuc.A, Nuc.A]) 0).2.1) 1
    (by decide)

/-! ### Feature-aware positions (C6) -/

/-- C6: for a reverse-strand feature and any relative position inside it,
`feature_ref_to_aln_position` reads from the far end
(`ref_to_aln(end − 1 − k)`) and `feature_aln_to_ref_position` is
`aln_to_ref(ref_to_aln(end − 1) − k)`; at relative position 0 the feature
maps to `ref_to_aln(end − 1)` on the reverse strand and to
`ref_to_aln(start)` on the forward strand. -/
theorem feature_positions_c6 (cm : CoordMap) (feat : Gene) :
    (feat.strand = GeneStrand.Reverse → ∀ k, k < feat.«end» - feat.start →
      cm.feature_ref_to_aln_position feat k =
        cm.ref_to_aln_position (feat.«end» - 1 - k) ∧
      cm.feature_aln_to_ref_position feat k =
        ((cm.ref_to_aln_position (feat.«end» - 1)).bind fun p =>
          cm.aln_to_ref_position (p - k))) ∧
    (feat.strand = GeneStrand.Reverse →
      cm.feature_ref_to_aln_position feat 0 =
        cm.ref_to_aln_position (feat.«end» - 1)) ∧
    (feat.strand = GeneStrand.Forward →
      cm.feature_ref_to_aln_position feat 0 =
        cm.ref_to_aln_position feat.start) := by
  refine ⟨fun hs k _ => ?_, fun hs => ?_, fun hs => ?_⟩
  · constructor
    · simp [CoordMap.feature_ref_to_aln_position, hs]
    · simp [CoordMap.feature_aln_to_ref_position, hs]
  · simp [CoordMap.feature_ref_to_aln_position, hs]
  · simp [CoordMap.feature_ref_to_aln_position, hs]

/-- C6 witness: a concrete reverse-strand feature at relative position 1. -/
theorem feature_positions_c6_witness :
    (CoordMap.new [Nuc.A, Nuc.C]).feature_ref_to_aln_position
        { start := 0, «end» := 2, strand := GeneStrand.Reverse, cdses := [] } 1 =
      (CoordMap.new [Nuc.A, Nuc.C]).ref_to_aln_position 0 :=
  ((feature_positions_c6 (CoordMap.new [Nuc.A, Nuc.C])
      { start := 0, «end» := 2, strand := GeneStrand.Reverse, cdses := [] }).1
    rfl 1 (by decide)).1

/-! ### CDS extraction (C7, C8, C10) -/

/-- The per-segment extraction as the spec words it: map the reference range
[start, end) to alignment coordinates, slice the aligned sequence by that
range, and reverse-complement the slice when the segment is on the reverse
strand. -/
def extract_cds_segment_spec_model (cm : CoordMap) (aln_seq : List Nuc)
    (seg : CdsSegment) : Option (List Nuc) :=
  (cm.ref_to_aln_range { begin := seg.start, «end» := seg.«end» }).bind fun rng =>
    (listSlice aln_seq rng.begin rng.«end»).map fun nucs =>
      if seg.strand = GeneStrand.Reverse then reverse_complement_in_place nucs
      else nucs

/-- C7: `extract_cds` concatenates, in segment list order, the per-segment
extractions (slice of the aligned sequence at the converted range,
reverse-complemented on the reverse strand), and `extract_gene` is the flat
concatenation of `extract_cds` over the gene's CDSes in list order. -/
theorem cds_extraction_c7 (cm : CoordMap) (seq : List Nuc) (cds : Cds) (gene : Gene) :
    cm.extract_cds seq cds =
      (cds.segments.mapM (extract_cds_segment_spec_model cm seq)).map List.flatten ∧
    cm.extract_gene seq gene =
      (gene.cdses.mapM (cm.extract_cds seq)).map List.flatten := by
  constructor
  · have hfun : extract_cds_segment_spec_model cm seq = cm.extract_cds_segment seq := by
      funext seg
      rfl
    rw [CoordMap.extract_cds, hfun]
  · rfl

theorem listSlice_length {α : Type} (l : List α) (b e : Nat) (sl : List α)
    (h : listSlice l b e = some sl) : sl.length = e - b := by
  unfold listSlice at h
  split at h
  · rename_i hc
    simp only [Option.some.injEq] at h
    subst h
    simp only [List.length_drop, List.length_take]
    omega
  · exact Option.noConfusion h

/-- Invariant of the `extract_cds_alignment` loop: all produced records have
`global` vectors of length `len`, and the `start`/`len` fields chain, the next
`start` being the accumulated sequence length. -/
theorem extract_cds_alignment_go_inv (cm : CoordMap) (seq : List Nuc) :
    ∀ (segs : List CdsSegment) (acc_aln : List Nuc) (acc_recs : List CdsToAln)
      (out : List Nuc × List CdsToAln),
      extract_cds_alignment_go cm seq segs acc_aln acc_recs = some out →
      (∀ r ∈ acc_recs, r.global.length = r.len) →
      List.Chain' (fun a b => a.start + a.len = b.start) acc_recs →
      (∀ r, acc_recs.getLast? = some r → r.start + r.len = acc_aln.length) →
      (∀ r ∈ out.2, r.global.length = r.len) ∧
      List.Chain' (fun a b => a.start + a.len = b.start) out.2 := by
  intro segs
  induction segs with
  | nil =>
    intro acc_aln acc_recs out h hlen hchain _
    simp only [extract_cds_alignment_go, Option.some.injEq] at h
    subst h
    exact ⟨hlen, hchain⟩
  | cons seg rest ih =>
    intro acc_aln acc_recs out h hlen hchain hlast
    simp only [extract_cds_alignment_go, Option.bind_eq_some] at h
    obtain ⟨start, hstart, e, hend, slice, hslice, h⟩ := h
    refine ih (acc_aln ++ slice)
      (acc_recs ++
        [{ global := List.range' start (e - start), start := acc_aln.length, len := e - start }])
      out h ?_ ?_ ?_
    · intro r hr
      rcases List.mem_append.mp hr with hr | hr
      · exact hlen r hr
      · simp only [List.mem_singleton] at hr
        subst hr
        simp [List.length_range']
    · refine List.Chain'.append hchain (List.chain'_singleton _) ?_
      intro x hx y hy
      simp only [List.head?_cons, Option.mem_def, Option.some.injEq] at hy
      subst hy
      exact hlast x hx
    · intro r hr
      rw [List.getLast?_concat] at hr
      simp only [Option.some.injEq] at hr
      subst hr
      simp only [List.length_append]
      rw [listSlice_length seq start e slice hslice]

/-- C8 (amended): the records returned by `extract_cds_alignment` have
`global` vectors of length `len[i]` each — so that their concatenation is
indexed exactly by the range [0, Σ len) of concatenated-CDS positions — and
`start[i] + len[i] = start[i+1]` for consecutive segments. -/
theorem cds_alignment_records_c8 (seq : List Nuc) (cds : Cds) (cm : CoordMap)
    (out : List Nuc × List CdsToAln)
    (h : extract_cds_alignment seq cds cm = some out) :
    (∀ r ∈ out.2, r.global.length = r.len) ∧
    ((out.2.map fun r => r.global).flatten.length = (out.2.map fun r => r.len).sum) ∧
    List.Chain' (fun a b => a.start + a.len = b.start) out.2 := by
  obtain ⟨hlen, hchain⟩ := extract_cds_alignment_go_inv cm seq cds.segments [] [] out h
    (by intro r hr; simp at hr) (by simp) (by intro r hr; simp at hr)
  refine ⟨hlen, ?_, hchain⟩
  rw [List.length_flatten, List.map_map]
  congr 1
  exact List.map_congr_left fun r hr => hlen r hr

/-- C8 counterexample: as literally stated in the claim, the concatenated
`global` vectors should equal the range [0, Σ len) of concatenated-CDS
positions, but for a segment whose mapped alignment start is nonzero the
`global` vector holds global alignment columns, not concatenated positions. -/
theorem cds_alignment_records_c8_counterexample :
    extract_cds_alignment [Nuc.A, Nuc.A, Nuc.A, Nuc.A]
        { segments := [{ start := 1, «end» := 2, strand := GeneStrand.Forward }] }
        (CoordMap.new [Nuc.A, Nuc.Gap, Nuc.C, Nuc.A]) =
      some ([Nuc.A], [{ global := [2], start := 0, len := 1 }]) ∧
    ¬ (([({ global := [2], start := 0, len := 1 } : CdsToAln)].map fun r => r.global).flatten =
        List.range (([({ global := [2], start := 0, len := 1 } : CdsToAln)].map fun r => r.len).sum)) := by
  decide

/-- C8 witness: the amended invariant evaluated on the run of the
counterexample input. -/
theorem cds_alignment_records_c8_witness :
    (([({ global := [2], start := 0, len := 1 } : CdsToAln)].map fun r => r.global).flatten.length =
      ([({ global := [2], start := 0, len := 1 } : CdsToAln)].map fun r => r.len).sum) :=
  (cds_alignment_records_c8 [Nuc.A, Nuc.A, Nuc.A, Nuc.A]
    { segments := [{ start := 1, «end» := 2, strand := GeneStrand.Forward }] }
    (CoordMap.new [Nuc.A, Nuc.Gap, Nuc.C, Nuc.A])
    ([Nuc.A], [{ global := [2], start := 0, len := 1 }]) (by decide)).2.1

/-- The `extract_cds_alignment` loop succeeds only if every segment's
half-open end is a valid index of the reference-to-alignment table. -/
theorem extract_cds_alignment_go_bounds (cm : CoordMap) (seq : List Nuc) :
    ∀ (segs : List CdsSegment) (acc_aln : List Nuc) (acc_recs : List CdsToAln)
      (out : List Nuc × List CdsToAln),
      extract_cds_alignment_go cm seq segs acc_aln acc_recs = some out →
      ∀ seg ∈ segs, seg.«end» < cm.ref_to_aln_table.length := by
  intro segs
  induction segs with
  | nil => intro _ _ _ _ seg hseg; simp at hseg
  | cons s0 rest ih =>
    intro acc_aln acc_recs out h seg hseg
    simp only [extract_cds_alignment_go, Option.bind_eq_some] at h
    obtain ⟨start, hstart, e, hend, slice, hslice, h⟩ := h
    rcases List.mem_cons.mp hseg with rfl | hseg
    · by_contra hc
      rw [CoordMap.ref_to_aln_position, List.getElem?_eq_none (by omega)] at hend
      exact Option.noConfusion hend
    · exact ih _ _ out h seg hseg

/-- C10: `extract_cds_alignment` indexes the reference-to-alignment table at
each segment's half-open end, so it is defined only when every segment end is
strictly below the number R of non-gap reference letters; a CDS containing a
segment with end = R makes the error branch fire; `extract_cds_segment`
converts the same range via the end−1 formula and accepts a segment ending
exactly at R. -/
theorem cds_alignment_bounds_c10 :
    (∀ (seq : List Nuc) (cds : Cds) (cm : CoordMap) (out : List Nuc × List CdsToAln),
        extract_cds_alignment seq cds cm = some out →
        ∀ seg ∈ cds.segments, seg.«end» < cm.ref_to_aln_table.length) ∧
    (∀ (seq : List Nuc) (cds : Cds) (cm : CoordMap),
        (∃ seg ∈ cds.segments, seg.«end» = cm.ref_to_aln_table.length) →
        extract_cds_alignment seq cds cm = none) ∧
    (∀ (s seq : List Nuc) (seg : CdsSegment),
        seq.length = s.length → seg.start < seg.«end» →
        seg.«end» = nonGapCount s →
        ((CoordMap.new s).extract_cds_segment seq seg).isSome = true) := by
  refine ⟨?_, ?_, ?_⟩
  · intro seq cds cm out h
    exact extract_cds_alignment_go_bounds cm seq cds.segments [] [] out h
  · intro seq cds cm ⟨seg, hmem, hend⟩
    cases h : extract_cds_alignment seq cds cm with
    | none => rfl
    | some out =>
      have := extract_cds_alignment_go_bounds cm seq cds.segments [] [] out h seg hmem
      omega
  · intro s seq seg hlen hlt hR
    obtain ⟨kb, ke, hkb, hke, hle, hkelen, _, _, _⟩ :=
      roundtrip_tables s seg.start seg.«end» hlt (by omega)
    simp only [CoordMap.extract_cds_segment, CoordMap.ref_to_aln_range,
      CoordMap.new_ref_to_aln_table, hkb, hke, Option.some_bind, Option.map_some']
    have hsl : listSlice seq kb (ke + 1) =
        some ((seq.take (ke + 1)).drop kb) := by
      unfold listSlice
      rw [if_pos]
      constructor
      · omega
      · omega
    rw [hsl]
    rfl

/-- C10 witness: with reference `AC` (R = 2), a segment ending at 2 makes
`extract_cds_alignment` fail while `extract_cds_segment` accepts it. -/
theorem cds_alignment_bounds_c10_witness :
    extract_cds_alignment [Nuc.A, Nuc.A]
        { segments := [{ start := 0, «end» := 2, strand := GeneStrand.Forward }] }
        (CoordMap.new [Nuc.A, Nuc.C]) = none ∧
    ((CoordMap.new [Nuc.A, Nuc.C]).extract_cds_segment [Nuc.A, Nuc.A]
        { start := 0, «end» := 2, strand := GeneStrand.Forward }).isSome = true :=
  ⟨cds_alignment_bounds_c10.2.1 [Nuc.A, Nuc.A]
      { segments := [{ start := 0, «end» := 2, strand := GeneStrand.Forward }] }
      (CoordMap.new [Nuc.A, Nuc.C])
      ⟨{ start := 0, «end» := 2, strand := GeneStrand.Forward }, by decide, by decide⟩,
    cds_alignment_bounds_c10.2.2 [Nuc.A, Nuc.C] [Nuc.A, Nuc.A]
      { start := 0, «end» := 2, strand := GeneStrand.Forward }
      (by decide) (by decide) (by decide)⟩

/-! ### Mutation model and set algebra -/

/-- Modelled from the spec: a nucleotide substitution (analyze/nuc_sub.rs is
not among the sources). -/
structure NucSub where
  pos : Nat
  ref_letter : Nuc
  qry_letter : Nuc
deriving DecidableEq

/-- Modelled from the spec: a nucleotide deletion (analyze/nuc_del.rs is not
among the sources). -/
structure NucDel where
  pos : Nat
  ref_letter : Nuc
deriving DecidableEq

/-- Modelled from the spec: a deletion promotes to a substitution whose query
letter is the gap. -/
def NucDel.to_sub (d : NucDel) : NucSub :=
  { pos := d.pos, ref_letter := d.ref_letter, qry_letter := Nuc.Gap }

/-- Modelled from the spec: an amino-acid substitution (analyze/aa_sub.rs is
not among the sources); amino acids are modelled as characters. -/
structure AaSub where
  cds_name : String
  pos : Nat
  ref_aa : Char
  qry_aa : Char
deriving DecidableEq

/-- Modelled from the spec: an amino-acid deletion. -/
structure AaDel where
  cds_name : String
  pos : Nat
  ref_aa : Char
deriving DecidableEq

/-- Modelled from the spec: an amino-acid deletion promotes to a substitution
with a gap query. -/
def AaDel.to_sub (d : AaDel) : AaSub :=
  { cds_name := d.cds_name, pos := d.pos, ref_aa := d.ref_aa, qry_aa := '-' }

/-- Modelled from the spec: the per-branch mutation bundle
(find_private_nuc_mutations.rs is not among the sources): nucleotide
substitutions sorted by position with unique positions, and a mapping from
CDS name to amino-acid substitutions, modelled as an association list. -/
structure BranchMutations where
  nuc_muts : List NucSub
  aa_muts : List (String × List AaSub)
deriving DecidableEq

/-- Models `BranchMutations::default()`: both collections empty. -/
def BranchMutations.default : BranchMutations :=
  { nuc_muts := [], aa_muts := [] }

/-- Modelled from the spec: invert swaps ref and qry of a substitution. -/
def NucSub.invert (m : NucSub) : NucSub :=
  { pos := m.pos, ref_letter := m.qry_letter, qry_letter := m.ref_letter }

/-- Modelled from the spec: invert swaps ref and qry of a substitution. -/
def AaSub.invert (m : AaSub) : AaSub :=
  { m with ref_aa := m.qry_aa, qry_aa := m.ref_aa }

/-- Modelled from the spec: `invert` of a bundle swaps ref and qry of every
substitution in both collections, preserving order. -/
def BranchMutations.invert (b : BranchMutations) : BranchMutations :=
  { nuc_muts := b.nuc_muts.map NucSub.invert
    aa_muts := b.aa_muts.map fun p => (p.1, p.2.map AaSub.invert) }

/-- The `SplitMutsResult` of tree/split_muts.rs, as used by tree_builder.rs. -/
structure SplitMutsResult where
  left : BranchMutations
  right : BranchMutations
  shared : BranchMutations
deriving DecidableEq

/-- Modelled from the spec: position-keyed outer join of two sorted
nucleotide substitution lists (tree/split_muts.rs is not among the sources).
A position present in both is shared when the query letter of the left entry
equals the reference letter of the right entry (the mutations chain in the
same direction); the spec does not fix the representative stored in the
shared bucket, the left entry is kept.  A position present in both whose
letters do not chain is the spec's mutation-algebra inconsistency, modelled
as `none`.  Result order: (left-only, shared, right-only). -/
def split_nuc_muts : List NucSub → List NucSub →
    Option (List NucSub × List NucSub × List NucSub)
  | [], r => some ([], [], r)
  | l, [] => some (l, [], [])
  | a :: l, b :: r =>
    if a.pos < b.pos then
      (split_nuc_muts l (b :: r)).map fun x => (a :: x.1, x.2.1, x.2.2)
    else if b.pos < a.pos then
      (split_nuc_muts (a :: l) r).map fun x => (x.1, x.2.1, b :: x.2.2)
    else if a.qry_letter = b.ref_letter then
      (split_nuc_muts l r).map fun x => (x.1, a :: x.2.1, x.2.2)
    else
      none
termination_by l r => l.length + r.length

/-- Modelled from the spec: the identical join on amino-acid substitution
lists of a single CDS. -/
def split_aa_list : List AaSub → List AaSub →
    Option (List AaSub × List AaSub × List AaSub)
  | [], r => some ([], [], r)
  | l, [] => some (l, [], [])
  | a :: l, b :: r =>
    if a.pos < b.pos then
      (split_aa_list l (b :: r)).map fun x => (a :: x.1, x.2.1, x.2.2)
    else if b.pos < a.pos then
      (split_aa_list (a :: l) r).map fun x => (x.1, x.2.1, b :: x.2.2)
    else if a.qry_aa = b.ref_aa then
      (split_aa_list l r).map fun x => (x.1, a :: x.2.1, x.2.2)
    else
      none
termination_by l r => l.length + r.length

/-- Modelled from the spec: per-CDS outer join of the keyed amino-acid
mutation maps (keys iterated in sorted order, as for a BTreeMap). -/
def split_aa_muts : List (String × List AaSub) → List (String × List AaSub) →
    Option (List (String × List AaSub) × List (String × List AaSub) ×
      List (String × List AaSub))
  | [], r => some ([], [], r)
  | l, [] => some (l, [], [])
  | (k1, v1) :: l, (k2, v2) :: r =>
    if k1 < k2 then
      (split_aa_muts l ((k2, v2) :: r)).map fun x => ((k1, v1) :: x.1, x.2.1, x.2.2)
    else if k2 < k1 then
      (split_aa_muts ((k1, v1) :: l) r).map fun x => (x.1, x.2.1, (k2, v2) :: x.2.2)
    else
      (split_aa_list v1 v2).bind fun y =>
        (split_aa_muts l r).map fun x =>
          ((k1, y.1) :: x.1, (k1, y.2.1) :: x.2.1, (k1, y.2.2) :: x.2.2)
termination_by l r => l.length + r.length

/-- Modelled from the spec: `split_muts` of tree/split_muts.rs, combining the
nucleotide and per-CDS amino-acid joins into a `SplitMutsResult`. -/
def split_muts (left right : BranchMutations) : Option SplitMutsResult :=
  (split_nuc_muts left.nuc_muts right.nuc_muts).bind fun n =>
    (split_aa_muts left.aa_muts right.aa_muts).map fun a =>
      { left := { nuc_muts := n.1, aa_muts := a.1 }
        right := { nuc_muts := n.2.2, aa_muts := a.2.2 }
        shared := { nuc_muts := n.2.1, aa_muts := a.2.1 } }

/-- Modelled from the spec: `count_nuc_muts` is the length of the nucleotide
substitution list (analyze/divergence.rs is not among the sources). -/
def count_nuc_muts (muts : List NucSub) : Nat :=
  muts.length

/-- Modelled from the spec: merge of two sorted nucleotide substitution
lists; at equal positions the right entry wins. -/
def union_nuc_muts : List NucSub → List NucSub → List NucSub
  | [], r => r
  | l, [] => l
  | a :: l, b :: r =>
    if a.pos < b.pos then a :: union_nuc_muts l (b :: r)
    else if b.pos < a.pos then b :: union_nuc_muts (a :: l) r
    else b :: union_nuc_muts l r
termination_by l r => l.length + r.length

/-- Modelled from the spec: the identical merge on amino-acid substitution
lists of a single CDS. -/
def union_aa_list : List AaSub → List AaSub → List AaSub
  | [], r => r
  | l, [] => l
  | a :: l, b :: r =>
    if a.pos < b.pos then a :: union_aa_list l (b :: r)
    else if b.pos < a.pos then b :: union_aa_list (a :: l) r
    else b :: union_aa_list l r
termination_by l r => l.length + r.length

/-- Modelled from the spec: keyed merge of the amino-acid maps; a key present
in both merges the lists. -/
def union_aa_muts : List (String × List AaSub) → List (String × List AaSub) →
    List (String × List AaSub)
  | [], r => r
  | l, [] => l
  | (k1, v1) :: l, (k2, v2) :: r =>
    if k1 < k2 then (k1, v1) :: union_aa_muts l ((k2, v2) :: r)
    else if k2 < k1 then (k2, v2) :: union_aa_muts ((k1, v1) :: l) r
    else (k1, union_aa_list v1 v2) :: union_aa_muts l r
termination_by l r => l.length + r.length

/-- Modelled from the spec: `union_of_muts` merges two bundles, the right one
winning at equal positions.  The source call sites propagate a possible
error, hence the `Option`; the spec describes no failure case. -/
def union_of_muts (a b : BranchMutations) : Option BranchMutations :=
  some { nuc_muts := union_nuc_muts a.nuc_muts b.nuc_muts
         aa_muts := union_aa_muts a.aa_muts b.aa_muts }

/-- Modelled from the spec: `difference_of_muts` removes from the first
bundle every position present in the second with identical letters.  The
source call sites propagate a possible error, hence the `Option`; the spec
describes no failure case. -/
def difference_of_muts (a b : BranchMutations) : Option BranchMutations :=
  some { nuc_muts := a.nuc_muts.filter fun m => decide (m ∉ b.nuc_muts)
         aa_muts := a.aa_muts.map fun p =>
           (p.1, p.2.filter fun m => decide (m ∉ ((b.aa_muts.lookup p.1).getD []))) }

/-! ### Tree graph model and placement engine -/

/-- Modelled from the spec: divergence units read from the tree metadata. -/
inductive DivergenceUnits where
  | NumSubstitutionsPerYearPerSite
  | NumSubstitutionsPerYear
deriving DecidableEq

/-- Modelled from the spec: `calculate_branch_length` (analyze/divergence.rs
is not among the sources): the raw nucleotide mutation count, or the count
per site; `f64` is modelled as the rationals. -/
def calculate_branch_length (nuc_muts : List NucSub)
    (divergence_units : DivergenceUnits) (ref_seq_len : Nat) : ℚ :=
  match divergence_units with
  | .NumSubstitutionsPerYear => (count_nuc_muts nuc_muts : ℚ)
  | .NumSubstitutionsPerYearPerSite => (count_nuc_muts nuc_muts : ℚ) / (ref_seq_len : ℚ)

/-- The `TreeBranchAttrsLabels` of tree/tree.rs as used by tree_builder.rs:
the `aa` and `clade` labels (the untyped `other` payload is omitted). -/
structure TreeBranchAttrsLabels where
  aa : Option String
  clade : Option String
deriving DecidableEq

/-- Modelled from the spec: the auspice node payload (tree/tree.rs is not
among the sources) with the fields tree_builder.rs reads and writes: name,
node_attrs.div, branch_attrs.mutations, branch_attrs.labels, and the
transient private mutations of the edge from the parent. -/
structure AuspiceGraphNodePayload where
  name : String
  div : Option ℚ
  branch_attrs_mutations : List (String × List String)
  branch_attrs_labels : Option TreeBranchAttrsLabels
  tmp_private_mutations : BranchMutations
deriving DecidableEq

/-- Modelled from the spec: the tree graph container (the graph module is not
among the sources): payloads keyed by insertion index, directed parent-child
edges, a root key, and the divergence-units metadata of the tree. -/
structure AuspiceGraph where
  payloads : List AuspiceGraphNodePayload
  edges : List (Nat × Nat)
  root : Nat
  divergence_units : DivergenceUnits
deriving DecidableEq

/-- Modelled from the spec: node lookup by key; an unknown key is the spec's
invariant-violation error. -/
def AuspiceGraph.get_node (g : AuspiceGraph) (k : Nat) :
    Option AuspiceGraphNodePayload :=
  g.payloads[k]?

/-- Modelled from the spec: the children of a node, in stored edge order. -/
def AuspiceGraph.children_of (g : AuspiceGraph) (k : Nat) : List Nat :=
  (g.edges.filter fun e => e.1 == k).map fun e => e.2

/-- Modelled from the spec: a node is a leaf iff it has no children. -/
def AuspiceGraph.is_leaf (g : AuspiceGraph) (k : Nat) : Bool :=
  (g.children_of k).isEmpty

/-- Modelled from the spec: the root test for a node key. -/
def AuspiceGraph.is_root (g : AuspiceGraph) (k : Nat) : Bool :=
  k == g.root

/-- Modelled from the spec: the parent of a node (the first edge pointing at
it); `none` when the node has no parent. -/
def AuspiceGraph.parent_of_by_key (g : AuspiceGraph) (k : Nat) : Option Nat :=
  (g.edges.find? fun e => e.2 == k).map fun e => e.1

/-- Modelled from the spec: `add_node` appends a payload and returns the new
key. -/
def AuspiceGraph.add_node (g : AuspiceGraph) (p : AuspiceGraphNodePayload) :
    AuspiceGraph × Nat :=
  ({ g with payloads := g.payloads ++ [p] }, g.payloads.length)

/-- Modelled from the spec: `add_edge` records a parent-child edge. -/
def AuspiceGraph.add_edge (g : AuspiceGraph) (parent child : Nat) : AuspiceGraph :=
  { g with edges := g.edges ++ [(parent, child)] }

/-- Modelled from the spec: `insert_node_before` splices a new node between a
target and its current parent: the parent edge is redirected to the new node
and an edge from the new node to the target is added; `none` when the target
has no parent. -/
def AuspiceGraph.insert_node_before (g : AuspiceGraph) (new_key target_key : Nat) :
    Option AuspiceGraph :=
  (g.parent_of_by_key target_key).map fun _ =>
    { g with
      edges := (g.edges.map fun e => if e.2 == target_key then (e.1, new_key) else e) ++
        [(new_key, target_key)] }

/-- Modelled from the spec: overwrite the payload of an existing node
(`get_node_mut`). -/
def AuspiceGraph.set_payload (g : AuspiceGraph) (k : Nat)
    (p : AuspiceGraphNodePayload) : AuspiceGraph :=
  { g with payloads := g.payloads.set k p }

/-- Modelled from the spec: substitutions are displayed and sorted by
position (the full derived order of the source types is not among the
sources). -/
def nucSubLe (a b : NucSub) : Prop :=
  a.pos ≤ b.pos

instance : DecidableRel nucSubLe :=
  fun a b => Nat.decLe a.pos b.pos

/-- Modelled from the spec: amino-acid substitutions sorted by position. -/
def aaSubLe (a b : AaSub) : Prop :=
  a.pos ≤ b.pos

instance : DecidableRel aaSubLe :=
  fun a b => Nat.decLe a.pos b.pos

/-- Modelled from the spec: display letter of a nucleotide. -/
def nucLetterString : Nuc → String
  | .A => "A"
  | .C => "C"
  | .G => "G"
  | .T => "T"
  | .N => "N"
  | .Gap => "-"

/-- Modelled from the spec: display of a nucleotide substitution as ref
letter, position, query letter. -/
def NucSub.to_string (m : NucSub) : String :=
  nucLetterString m.ref_letter ++ toString m.pos ++ nucLetterString m.qry_letter

/-- Modelled from the spec: display of an amino-acid substitution without the
CDS prefix. -/
def AaSub.to_string_without_gene (m : AaSub) : String :=
  toString m.ref_aa ++ toString m.pos ++ toString m.qry_aa

/-- `convert_private_mutations_to_node_branch_attrs` of tree_builder.rs
(lines 223-237): the serialized per-CDS view of a mutation bundle.  The
BTreeMap iteration order (sorted keys, with "nuc" interleaved) is modelled as
insertion order with "nuc" first; no claim inspects the order. -/
def convert_private_mutations_to_node_branch_attrs (mutations : BranchMutations) :
    List (String × List String) :=
  let nuc_muts := (List.insertionSort nucSubLe mutations.nuc_muts).map NucSub.to_string
  ("nuc", nuc_muts) ::
    mutations.aa_muts.filterMap fun p =>
      if p.2.isEmpty then none
      else some (p.1,
        (List.insertionSort aaSubLe p.2).map AaSub.to_string_without_gene)

/-- `convert_private_mutations_to_node_branch_attrs_aa_labels` of
tree_builder.rs (lines 239-248). -/
def convert_private_mutations_to_node_branch_attrs_aa_labels
    (aa_muts : List (String × List AaSub)) : String :=
  String.intercalate "; "
    ((aa_muts.filter fun p => ! p.2.isEmpty).map fun p =>
      p.1 ++ ": " ++
        String.intercalate ", "
          ((List.insertionSort aaSubLe p.2).map AaSub.to_string_without_gene))

/-- `set_branch_attrs_aa_labels` of tree_builder.rs (lines 367-378). -/
def set_branch_attrs_aa_labels (node : AuspiceGraphNodePayload) :
    AuspiceGraphNodePayload :=
  let aa_labels :=
    convert_private_mutations_to_node_branch_attrs_aa_labels
      node.tmp_private_mutations.aa_muts
  match node.branch_attrs_labels with
  | some labels =>
    { node with branch_attrs_labels := some { labels with aa := some aa_labels } }
  | none =>
    { node with branch_attrs_labels := some { aa := some aa_labels, clade := none } }

/-- Modelled from the spec: the per-sample private nucleotide mutations
consumed by tree_builder.rs (types/outputs.rs is not among the sources). -/
structure PrivateNucMutations where
  private_substitutions : List NucSub
  private_deletions : List NucDel
  total_private_substitutions : Nat
deriving DecidableEq

/-- Modelled from the spec: per-CDS private amino-acid mutations. -/
structure PrivateAaMutations where
  private_substitutions : List AaSub
  private_deletions : List AaDel
deriving DecidableEq

/-- Modelled from the spec: the per-sample analysis outputs consumed by the
tree builder: input order index, sequence name, nearest node, and private
mutations. -/
structure NextcladeOutputs where
  index : Nat
  seq_name : String
  nearest_node_id : Nat
  private_nuc_mutations : PrivateNucMutations
  private_aa_mutations : List (String × PrivateAaMutations)
deriving DecidableEq

/-- The tree-builder params of tree/params.rs as read by tree_builder.rs. -/
structure TreeBuilderParams where
  without_greedy_tree_builder : Bool
deriving DecidableEq

/-- Modelled from the spec: `create_new_auspice_node`
(tree/tree_attach_new_nodes.rs is not among the sources) builds the auspice
payload for the new sample node: the sample name, the given divergence, and
branch attrs rendered from the given mutations. -/
def create_new_auspice_node (result : NextcladeOutputs)
    (new_private_mutations : BranchMutations) (new_divergence : ℚ) :
    AuspiceGraphNodePayload :=
  { name := result.seq_name
    div := some new_divergence
    branch_attrs_mutations :=
      convert_private_mutations_to_node_branch_attrs new_private_mutations
    branch_attrs_labels := none
    tmp_private_mutations := BranchMutations.default }

/-- `attach_to_internal_node` of tree_builder.rs (lines 206-221). -/
def attach_to_internal_node (graph : AuspiceGraph) (nearest_node_id : Nat)
    (new_private_mutations : BranchMutations) (result : NextcladeOutputs)
    (divergence_new_node : ℚ) : AuspiceGraph :=
  let new_graph_node := create_new_auspice_node result new_private_mutations
    divergence_new_node
  let new_graph_node :=
    { new_graph_node with tmp_private_mutations := new_private_mutations }
  let added := graph.add_node new_graph_node
  added.1.add_edge nearest_node_id added.2

/-- Outcome of one iteration of the `finetune_nearest_node` loop: continue at
a new node with updated private mutations, or stop and return. -/
inductive FinetuneStep where
  | cont (key : Nat) (private_mutations : BranchMutations)
  | done (key : Nat) (private_mutations : BranchMutations)
deriving DecidableEq

/-- The self-candidate split of `finetune_nearest_node` (tree_builder.rs
lines 110-131): the root gets the degenerate split with the whole private
bundle in `left` and score 0; otherwise the node's inverted parent-edge
mutations are split against the private mutations and scored by the shared
nucleotide count. -/
def finetune_self_split (g : AuspiceGraph) (node_key : Nat)
    (payload : AuspiceGraphNodePayload) (private_mutations : BranchMutations) :
    Option (SplitMutsResult × Nat) :=
  if g.is_root node_key then
    some ({ left := private_mutations, right := BranchMutations.default,
            shared := BranchMutations.default }, 0)
  else
    (split_muts payload.tmp_private_mutations.invert private_mutations).map fun s =>
      (s, count_nuc_muts s.shared.nuc_muts)

/-- The children loop of `finetune_nearest_node` (tree_builder.rs lines
133-147): each child's edge mutations are split against the private
mutations; a strictly greater shared nucleotide count replaces the best
candidate (ties keep the earlier candidate). -/
def finetune_children_fold (g : AuspiceGraph) (private_mutations : BranchMutations) :
    List Nat → Nat × SplitMutsResult × Nat → Option (Nat × SplitMutsResult × Nat)
  | [], best => some best
  | child_key :: rest, best =>
    (g.get_node child_key).bind fun child =>
      (split_muts child.tmp_private_mutations private_mutations).bind fun s =>
        if count_nuc_muts s.shared.nuc_muts > best.2.2 then
          finetune_children_fold g private_mutations rest
            (child_key, s, count_nuc_muts s.shared.nuc_muts)
        else
          finetune_children_fold g private_mutations rest best

/-- One iteration of the `finetune_nearest_node` loop (tree_builder.rs lines
108-201): score the current node (against its inverted parent edge) and its
children; with a positive best score, move up when the whole parent edge is
absorbed, stop when the current node stays best, or move down to the best
child — updating the private mutations by subtracting the shared part and
unioning the inverted left part; with a zero best score, step up over a
non-root zero-length leaf (subtracting the shared part only), and stop
otherwise. -/
def finetune_one_iteration (g : AuspiceGraph) (current_key : Nat)
    (private_mutations : BranchMutations) : Option FinetuneStep :=
  (g.get_node current_key).bind fun current =>
    (finetune_self_split g current_key current private_mutations).bind fun self =>
      (finetune_children_fold g private_mutations (g.children_of current_key)
          (current_key, self.1, self.2)).bind fun best =>
        if best.2.2 > 0 then
          if best.1 = current_key ∧ best.2.1.left.nuc_muts = [] then
            (g.parent_of_by_key best.1).bind fun parent =>
              (difference_of_muts private_mutations best.2.1.shared).bind fun p1 =>
                (union_of_muts p1 best.2.1.left.invert).map fun p2 =>
                  FinetuneStep.cont parent p2
          else if best.1 = current_key then
            some (FinetuneStep.done current_key private_mutations)
          else
            (g.get_node best.1).bind fun _ =>
              (difference_of_muts private_mutations best.2.1.shared).bind fun p1 =>
                (union_of_muts p1 best.2.1.left.invert).map fun p2 =>
                  FinetuneStep.cont best.1 p2
        else if g.is_leaf current_key = true ∧ g.is_root current_key = false ∧
            current.tmp_private_mutations.nuc_muts = [] then
          (difference_of_muts private_mutations best.2.1.shared).bind fun p1 =>
            (g.parent_of_by_key best.1).map fun parent =>
              FinetuneStep.cont parent p1
        else
          some (FinetuneStep.done current_key private_mutations)

/-- `finetune_nearest_node` of tree_builder.rs (lines 100-204).  The source's
unbounded `loop` is modelled by fuel recursion; exhausted fuel is `none`. -/
def finetune_nearest_node (g : AuspiceGraph) (fuel : Nat) (nearest_node_key : Nat)
    (seq_private_mutations : BranchMutations) : Option (Nat × BranchMutations) :=
  match fuel with
  | 0 => none
  | fuel + 1 =>
    (finetune_one_iteration g nearest_node_key seq_private_mutations).bind fun step =>
      match step with
      | .done k p => some (k, p)
      | .cont k p => finetune_nearest_node g fuel k p

theorem finetune_children_fold_score_le (g : AuspiceGraph)
    (priv : BranchMutations) :
    ∀ (children : List Nat) (init best : Nat × SplitMutsResult × Nat),
      finetune_children_fold g priv children init = some best →
      init.2.2 ≤ best.2.2 := by
  intro children
  induction children with
  | nil =>
    intro init best h
    simp only [finetune_children_fold, Option.some.injEq] at h
    subst h
    exact Nat.le_refl _
  | cons c rest ih =>
    intro init best h
    simp only [finetune_children_fold, Option.bind_eq_some] at h
    obtain ⟨child, _, s, _, h⟩ := h
    split at h
    · rename_i hgt
      have := ih _ best h
      simp only at this
      omega
    · exact ih _ best h

/-- If the children loop ends with score zero, no candidate ever replaced the
initial one. -/
theorem finetune_children_fold_zero (g : AuspiceGraph) (priv : BranchMutations) :
    ∀ (children : List Nat) (init best : Nat × SplitMutsResult × Nat),
      finetune_children_fold g priv children init = some best →
      best.2.2 = 0 → best = init := by
  intro children
  induction children with
  | nil =>
    intro init best h _
    simp only [finetune_children_fold, Option.some.injEq] at h
    exact h.symm
  | cons c rest ih =>
    intro init best h hz
    simp only [finetune_children_fold, Option.bind_eq_some] at h
    obtain ⟨child, _, s, _, h⟩ := h
    split at h
    · rename_i hgt
      have := finetune_children_fold_score_le g priv rest _ best h
      simp only at this
      omega
    · exact ih _ best h hz

/-- C2: when the best shared-nucleotide score of an iteration of the
fine-tune loop is zero, the loop steps up to the parent — updating the
private mutations only by subtracting the split's shared part, with no union
of the inverted left part — exactly when the current node is a non-root leaf
whose private nucleotide mutations are empty; in every other zero-score case
the iteration stops and returns the current key with the unchanged private
mutations. -/
theorem finetune_zero_score_c2 (g : AuspiceGraph) (ck : Nat)
    (priv : BranchMutations) (current : AuspiceGraphNodePayload)
    (self : SplitMutsResult × Nat) (best : Nat × SplitMutsResult × Nat)
    (hget : g.get_node ck = some current)
    (hself : finetune_self_split g ck current priv = some self)
    (hfold : finetune_children_fold g priv (g.children_of ck)
      (ck, self.1, self.2) = some best)
    (hzero : best.2.2 = 0) :
    if g.is_leaf ck = true ∧ g.is_root ck = false ∧
        current.tmp_private_mutations.nuc_muts = [] then
      finetune_one_iteration g ck priv =
        ((g.parent_of_by_key ck).bind fun parent =>
          (difference_of_muts priv best.2.1.shared).map fun p1 =>
            FinetuneStep.cont parent p1) ∧
      ∀ fuel, finetune_nearest_node g (fuel + 1) ck priv =
        (g.parent_of_by_key ck).bind fun parent =>
          (difference_of_muts priv best.2.1.shared).bind fun p1 =>
            finetune_nearest_node g fuel parent p1
    else
      finetune_one_iteration g ck priv = some (FinetuneStep.done ck priv) ∧
      ∀ fuel, finetune_nearest_node g (fuel + 1) ck priv = some (ck, priv) := by
  have hbest : best = (ck, self.1, self.2) :=
    finetune_children_fold_zero g priv (g.children_of ck) _ best hfold hzero
  have hb1 : best.1 = ck := by rw [hbest]
  by_cases hc : g.is_leaf ck = true ∧ g.is_root ck = false ∧
      current.tmp_private_mutations.nuc_muts = []
  · rw [if_pos hc]
    have h1 : finetune_one_iteration g ck priv =
        (g.parent_of_by_key ck).bind fun parent =>
          (difference_of_muts priv best.2.1.shared).map fun p1 =>
            FinetuneStep.cont parent p1 := by
      simp only [finetune_one_iteration, hget, Option.some_bind, hself, hfold,
        hzero, lt_self_iff_false, if_false, gt_iff_lt, if_pos hc, hb1]
      cases hp : g.parent_of_by_key ck with
      | none => simp [difference_of_muts, hp]
      | some pk => simp [difference_of_muts, hp]
    refine ⟨h1, fun fuel => ?_⟩
    simp only [finetune_nearest_node, h1]
    cases hp : g.parent_of_by_key ck with
    | none => simp
    | some pk => simp [difference_of_muts]
  · rw [if_neg hc]
    have h1 : finetune_one_iteration g ck priv =
        some (FinetuneStep.done ck priv) := by
      simp only [finetune_one_iteration, hget, Option.some_bind, hself, hfold,
        hzero, lt_self_iff_false, if_false, gt_iff_lt, if_neg hc]
    refine ⟨h1, fun fuel => ?_⟩
    simp only [finetune_nearest_node, h1, Option.some_bind]

/-- A two-node graph fixture: a root with a single leaf child that carries no
private mutations. -/
def examplePayload (nm : String) (muts : BranchMutations) : AuspiceGraphNodePayload :=
  { name := nm, div := none, branch_attrs_mutations := [],
    branch_attrs_labels := none, tmp_private_mutations := muts }

def exampleGraph2 : AuspiceGraph :=
  { payloads := [examplePayload "root" BranchMutations.default,
      examplePayload "leaf" BranchMutations.default]
    edges := [(0, 1)], root := 0
    divergence_units := DivergenceUnits.NumSubstitutionsPerYear }

def examplePriv : BranchMutations :=
  { nuc_muts := [{ pos := 5, ref_letter := Nuc.A, qry_letter := Nuc.T }]
    aa_muts := [] }

/-- The degenerate split of the fixture: nothing shared, the whole private
bundle on the right. -/
def exampleSplit0 : SplitMutsResult :=
  { left := BranchMutations.default, right := examplePriv,
    shared := BranchMutations.default }

/-- C2 witness: at the zero-length leaf of the fixture, the zero-score
iteration continues at the root parent with the private mutations merely
diffed against the empty shared part. -/
theorem finetune_zero_score_c2_witness :
    finetune_one_iteration exampleGraph2 1 examplePriv =
      some (FinetuneStep.cont 0 examplePriv) := by
  have h := finetune_zero_score_c2 exampleGraph2 1 examplePriv
    (examplePayload "leaf" BranchMutations.default)
    (exampleSplit0, 0) (1, exampleSplit0, 0)
    (by decide)
    (by simp [finetune_self_split, exampleGraph2, AuspiceGraph.is_root, split_muts,
      split_nuc_muts, split_aa_muts, BranchMutations.invert, BranchMutations.default,
      examplePriv, examplePayload, exampleSplit0, count_nuc_muts])
    (by decide) (by decide)
  rw [if_pos (by refine ⟨by decide, by decide, by decide⟩)] at h
  exact h.1.trans (by decide)

/-- The `KnitMuts` decomposition of tree_builder.rs (lines 250-254). -/
structure KnitMuts where
  muts_common_branch : BranchMutations
  muts_target_node : BranchMutations
  muts_new_node : BranchMutations
deriving DecidableEq

/-- The new-internal-node block of `knit_into_graph` (tree_builder.rs lines
311-326): clone the target payload, set its private mutations to the
common-branch part and its divergence, recompute branch attrs and amino-acid
labels, nuke any clade label, and name it from the target key.  The node-key
display is modelled as the decimal representation of the key. -/
def knit_new_internal_node (target_node_auspice : AuspiceGraphNodePayload)
    (km : KnitMuts) (divergence_middle_node : ℚ) (target_key : Nat) :
    AuspiceGraphNodePayload :=
  let n1 := { target_node_auspice with
    tmp_private_mutations := km.muts_common_branch
    div := some divergence_middle_node }
  let n2 := { n1 with
    branch_attrs_mutations :=
      convert_private_mutations_to_node_branch_attrs n1.tmp_private_mutations }
  let n3 := match n2.branch_attrs_labels with
    | some labels =>
      { n2 with branch_attrs_labels := some { labels with clade := none } }
    | none => n2
  let n4 := set_branch_attrs_aa_labels n3
  { n4 with name := Nat.repr target_key ++ "_internal" }

/-- The target-payload update of `knit_into_graph` (tree_builder.rs lines
337-344): overwrite the private mutations with the target-residual part and
recompute branch attrs and amino-acid labels. -/
def knit_updated_target (tgt : AuspiceGraphNodePayload) (km : KnitMuts) :
    AuspiceGraphNodePayload :=
  let tgt1 := { tgt with tmp_private_mutations := km.muts_target_node }
  let tgt2 := { tgt1 with
    branch_attrs_mutations :=
      convert_private_mutations_to_node_branch_attrs tgt1.tmp_private_mutations }
  set_branch_attrs_aa_labels tgt2

/-- `knit_into_graph` of tree_builder.rs (lines 256-365): without the greedy
builder or at the root, attach directly with the full private mutations;
otherwise split the inverted target edge against the private mutations, and
if the target is a leaf or the target-residual mutations have nucleotide
content, splice a new internal node (carrying the common-branch mutations)
between the target and its parent and hang the new sample under it; else
attach the new sample directly under the target. -/
def knit_into_graph (graph : AuspiceGraph) (target_key : Nat)
    (result : NextcladeOutputs) (private_mutations : BranchMutations)
    (ref_seq_len : Nat) (params : TreeBuilderParams) : Option AuspiceGraph :=
  let divergence_units := graph.divergence_units
  (graph.get_node target_key).bind fun target_node_auspice =>
    let target_node_div := target_node_auspice.div.getD 0
    ((if params.without_greedy_tree_builder = true ∨ graph.is_root target_key = true then
        some ({ muts_common_branch := target_node_auspice.tmp_private_mutations
                muts_target_node := BranchMutations.default
                muts_new_node := private_mutations } : KnitMuts)
      else
        (split_muts target_node_auspice.tmp_private_mutations.invert
            private_mutations).map fun s =>
          ({ muts_common_branch := s.left.invert
             muts_target_node := s.shared.invert
             muts_new_node := s.right } : KnitMuts)).bind fun km =>
      if graph.is_leaf target_key = true ∨ km.muts_target_node.nuc_muts ≠ [] then
        let divergence_middle_node := target_node_div -
          calculate_branch_length km.muts_target_node.nuc_muts divergence_units
            ref_seq_len
        let new_internal_node :=
          knit_new_internal_node target_node_auspice km divergence_middle_node
            target_key
        let added := graph.add_node new_internal_node
        (added.1.insert_node_before added.2 target_key).bind fun g2 =>
          (g2.get_node target_key).map fun tgt =>
            let g3 := g2.set_payload target_key (knit_updated_target tgt km)
            attach_to_internal_node g3 added.2 km.muts_new_node result
              (divergence_middle_node +
                calculate_branch_length km.muts_new_node.nuc_muts divergence_units
                  ref_seq_len)
      else
        some (attach_to_internal_node graph target_key private_mutations result
          (target_node_div +
            calculate_branch_length km.muts_new_node.nuc_muts divergence_units
              ref_seq_len)))

theorem set_branch_attrs_aa_labels_name (n : AuspiceGraphNodePayload) :
    (set_branch_attrs_aa_labels n).name = n.name := by
  cases h : n.branch_attrs_labels <;> simp [set_branch_attrs_aa_labels, h]

theorem set_branch_attrs_aa_labels_div (n : AuspiceGraphNodePayload) :
    (set_branch_attrs_aa_labels n).div = n.div := by
  cases h : n.branch_attrs_labels <;> simp [set_branch_attrs_aa_labels, h]

theorem set_branch_attrs_aa_labels_tmp (n : AuspiceGraphNodePayload) :
    (set_branch_attrs_aa_labels n).tmp_private_mutations =
      n.tmp_private_mutations := by
  cases h : n.branch_attrs_labels <;> simp [set_branch_attrs_aa_labels, h]

theorem knit_new_internal_node_name (tp : AuspiceGraphNodePayload) (km : KnitMuts)
    (d : ℚ) (k : Nat) :
    (knit_new_internal_node tp km d k).name = Nat.repr k ++ "_internal" := rfl

theorem knit_new_internal_node_tmp (tp : AuspiceGraphNodePayload) (km : KnitMuts)
    (d : ℚ) (k : Nat) :
    (knit_new_internal_node tp km d k).tmp_private_mutations =
      km.muts_common_branch := by
  cases h : tp.branch_attrs_labels <;>
    simp [knit_new_internal_node, h, set_branch_attrs_aa_labels_tmp]

theorem knit_new_internal_node_div (tp : AuspiceGraphNodePayload) (km : KnitMuts)
    (d : ℚ) (k : Nat) :
    (knit_new_internal_node tp km d k).div = some d := by
  cases h : tp.branch_attrs_labels <;>
    simp [knit_new_internal_node, h, set_branch_attrs_aa_labels_div]

theorem attach_to_internal_node_eq (g : AuspiceGraph) (k : Nat)
    (muts : BranchMutations) (result : NextcladeOutputs) (d : ℚ) :
    attach_to_internal_node g k muts result d =
      { g with
        payloads := g.payloads ++
          [{ create_new_auspice_node result muts d with
              tmp_private_mutations := muts }]
        edges := g.edges ++ [(k, g.payloads.length)] } := rfl

theorem attach_to_internal_node_get_node_lt (g : AuspiceGraph) (k : Nat)
    (muts : BranchMutations) (result : NextcladeOutputs) (d : ℚ) (i : Nat)
    (h : i < g.payloads.length) :
    (attach_to_internal_node g k muts result d).get_node i = g.get_node i := by
  rw [attach_to_internal_node_eq]
  simp only [AuspiceGraph.get_node]
  exact List.getElem?_append_left h

theorem attach_to_internal_node_get_node_new (g : AuspiceGraph) (k : Nat)
    (muts : BranchMutations) (result : NextcladeOutputs) (d : ℚ) :
    (attach_to_internal_node g k muts result d).get_node g.payloads.length =
      some { create_new_auspice_node result muts d with
        tmp_private_mutations := muts } := by
  rw [attach_to_internal_node_eq]
  simp only [AuspiceGraph.get_node]
  exact List.getElem?_concat_length _ _

theorem attach_to_internal_node_edges (g : AuspiceGraph) (k : Nat)
    (muts : BranchMutations) (result : NextcladeOutputs) (d : ℚ) :
    (attach_to_internal_node g k muts result d).edges =
      g.edges ++ [(k, g.payloads.length)] := by
  rw [attach_to_internal_node_eq]

theorem attach_to_internal_node_length (g : AuspiceGraph) (k : Nat)
    (muts : BranchMutations) (result : NextcladeOutputs) (d : ℚ) :
    (attach_to_internal_node g k muts result d).payloads.length =
      g.payloads.length + 1 := by
  rw [attach_to_internal_node_eq]
  simp

/-- C3: with the greedy builder enabled and a non-root target, a new internal
node is spliced between the target and its parent iff the target is a leaf or
the residual target mutations (invert of the split's shared part) have
non-empty nucleotide content; the internal node is named from the target key,
carries the invert of the split's left part as private mutations, and has
divergence target.div minus the branch length of the residual mutations,
while the new sample leaf hangs under it at the internal divergence plus the
branch length of its own mutations; otherwise the new leaf is attached
directly as a child of the target. -/
theorem knit_into_graph_c3 (g : AuspiceGraph) (target_key : Nat)
    (result : NextcladeOutputs) (priv : BranchMutations) (ref_seq_len : Nat)
    (params : TreeBuilderParams) (tp : AuspiceGraphNodePayload)
    (sp : SplitMutsResult) (pk : Nat)
    (hgreedy : params.without_greedy_tree_builder = false)
    (hroot : g.is_root target_key = false)
    (hget : g.get_node target_key = some tp)
    (hsplit : split_muts tp.tmp_private_mutations.invert priv = some sp)
    (hparent : g.parent_of_by_key target_key = some pk)
    (hpk : pk < g.payloads.length) :
    if g.is_leaf target_key = true ∨ sp.shared.invert.nuc_muts ≠ [] then
      ∃ g', knit_into_graph g target_key result priv ref_seq_len params = some g' ∧
        (∃ ip, g'.get_node g.payloads.length = some ip ∧
          ip.name = Nat.repr target_key ++ "_internal" ∧
          ip.tmp_private_mutations = sp.left.invert ∧
          ip.div = some (tp.div.getD 0 -
            calculate_branch_length sp.shared.invert.nuc_muts g.divergence_units
              ref_seq_len)) ∧
        ((pk, g.payloads.length) ∈ g'.edges ∧
          (g.payloads.length, target_key) ∈ g'.edges ∧
          (pk, target_key) ∉ g'.edges) ∧
        (∃ lp, g'.get_node (g.payloads.length + 1) = some lp ∧
          (g.payloads.length, g.payloads.length + 1) ∈ g'.edges ∧
          lp.tmp_private_mutations = sp.right ∧
          lp.div = some ((tp.div.getD 0 -
              calculate_branch_length sp.shared.invert.nuc_muts g.divergence_units
                ref_seq_len) +
            calculate_branch_length sp.right.nuc_muts g.divergence_units
              ref_seq_len))
    else
      ∃ g', knit_into_graph g target_key result priv ref_seq_len params = some g' ∧
        g'.payloads.length = g.payloads.length + 1 ∧
        ∃ lp, g'.get_node g.payloads.length = some lp ∧
          (target_key, g.payloads.length) ∈ g'.edges ∧
          lp.tmp_private_mutations = priv ∧
          lp.div = some (tp.div.getD 0 +
            calculate_branch_length sp.right.nuc_muts g.divergence_units
              ref_seq_len) := by
  have htlen : target_key < g.payloads.length := by
    by_contra hc
    rw [AuspiceGraph.get_node, List.getElem?_eq_none (by omega)] at hget
    exact Option.noConfusion hget
  have hget' : g.payloads[target_key]? = some tp := hget
  obtain ⟨e0, hfind, he01⟩ :
      ∃ e0, (g.edges.find? fun e => e.2 == target_key) = some e0 ∧ e0.1 = pk := by
    unfold AuspiceGraph.parent_of_by_key at hparent
    cases hf : g.edges.find? fun e => e.2 == target_key with
    | none => rw [hf] at hparent; exact Option.noConfusion hparent
    | some e1 =>
      rw [hf, Option.map_some'] at hparent
      exact ⟨e1, rfl, by simpa using hparent⟩
  have he02 : e0.2 = target_key := by
    have := List.find?_some hfind
    simpa using this
  have he0mem : e0 ∈ g.edges := List.mem_of_find?_eq_some hfind
  by_cases hcond : g.is_leaf target_key = true ∨ sp.shared.invert.nuc_muts ≠ []
  · rw [if_pos hcond]
    have hlen3 : ((g.payloads ++
        [knit_new_internal_node tp ⟨sp.left.invert, sp.shared.invert, sp.right⟩
          (tp.div.getD 0 - calculate_branch_length sp.shared.invert.nuc_muts
            g.divergence_units ref_seq_len) target_key]).set target_key
        (knit_updated_target tp
          ⟨sp.left.invert, sp.shared.invert, sp.right⟩)).length =
        g.payloads.length + 1 := by
      simp [List.length_set, List.length_append]
    have hk : knit_into_graph g target_key result priv ref_seq_len params =
        some (attach_to_internal_node
          { g with
            payloads := (g.payloads ++
              [knit_new_internal_node tp
                ⟨sp.left.invert, sp.shared.invert, sp.right⟩
                (tp.div.getD 0 - calculate_branch_length sp.shared.invert.nuc_muts
                  g.divergence_units ref_seq_len) target_key]).set target_key
              (knit_updated_target tp ⟨sp.left.invert, sp.shared.invert, sp.right⟩)
            edges := (g.edges.map fun e =>
                if e.2 == target_key then (e.1, g.payloads.length) else e) ++
              [(g.payloads.length, target_key)] }
          g.payloads.length sp.right result
          ((tp.div.getD 0 - calculate_branch_length sp.shared.invert.nuc_muts
            g.divergence_units ref_seq_len) +
            calculate_branch_length sp.right.nuc_muts g.divergence_units
              ref_seq_len)) := by
      simp only [knit_into_graph, hget, Option.some_bind, hgreedy, hroot,
        Bool.false_eq_true, or_self, if_false, hsplit, Option.map_some',
        Option.some_bind]
      rw [if_pos hcond]
      simp only [AuspiceGraph.add_node, AuspiceGraph.insert_node_before,
        AuspiceGraph.parent_of_by_key, hfind, Option.map_some',
        Option.some_bind, AuspiceGraph.get_node, List.getElem?_append_left htlen,
        hget', AuspiceGraph.set_payload]
    refine ⟨_, hk, ?_, ?_, ?_⟩
    · refine ⟨knit_new_internal_node tp ⟨sp.left.invert, sp.shared.invert, sp.right⟩
        (tp.div.getD 0 - calculate_branch_length sp.shared.invert.nuc_muts
          g.divergence_units ref_seq_len) target_key, ?_,
        knit_new_internal_node_name tp _ _ target_key, ?_, ?_⟩
      · rw [attach_to_internal_node_get_node_lt]
        · simp only [AuspiceGraph.get_node]
          rw [List.getElem?_set_ne (by omega)]
          exact List.getElem?_concat_length _ _
        · simp only [hlen3]
          omega
      · rw [knit_new_internal_node_tmp]
      · rw [knit_new_internal_node_div]
    · rw [attach_to_internal_node_edges]
      refine ⟨?_, ?_, ?_⟩
      · apply List.mem_append_left
        apply List.mem_append_left
        have hf0 : (fun e => if e.2 == target_key then (e.1, g.payloads.length)
            else e) e0 = (pk, g.payloads.length) := by
          simp [he02, he01]
        rw [← hf0]
        exact List.mem_map_of_mem _ he0mem
      · apply List.mem_append_left
        apply List.mem_append_right
        simp
      · intro hmem
        rcases List.mem_append.mp hmem with hmem | hmem
        · rcases List.mem_append.mp hmem with hmem | hmem
          · obtain ⟨e, hemem, hfe⟩ := List.mem_map.mp hmem
            by_cases hcase : (e.2 == target_key) = true
            · rw [if_pos hcase] at hfe
              have : g.payloads.length = target_key := congrArg Prod.snd hfe
              omega
            · rw [if_neg hcase] at hfe
              subst hfe
              simp at hcase
          · have hx := List.mem_singleton.mp hmem
            have : pk = g.payloads.length := congrArg Prod.fst hx
            omega
        · have hx := List.mem_singleton.mp hmem
          have h2 : target_key = ((g.payloads ++
              [knit_new_internal_node tp ⟨sp.left.invert, sp.shared.invert, sp.right⟩
                (tp.div.getD 0 - calculate_branch_length sp.shared.invert.nuc_muts
                  g.divergence_units ref_seq_len) target_key]).set target_key
              (knit_updated_target tp
                ⟨sp.left.invert, sp.shared.invert, sp.right⟩)).length := by
            exact congrArg Prod.snd hx
          rw [hlen3] at h2
          omega
    · have hnew := attach_to_internal_node_get_node_new
        { g with
          payloads := (g.payloads ++
            [knit_new_internal_node tp
              ⟨sp.left.invert, sp.shared.invert, sp.right⟩
              (tp.div.getD 0 - calculate_branch_length sp.shared.invert.nuc_muts
                g.divergence_units ref_seq_len) target_key]).set target_key
            (knit_updated_target tp ⟨sp.left.invert, sp.shared.invert, sp.right⟩)
          edges := (g.edges.map fun e =>
              if e.2 == target_key then (e.1, g.payloads.length) else e) ++
            [(g.payloads.length, target_key)] }
        g.payloads.length sp.right result
        ((tp.div.getD 0 - calculate_branch_length sp.shared.invert.nuc_muts
          g.divergence_units ref_seq_len) +
          calculate_branch_length sp.right.nuc_muts g.divergence_units
            ref_seq_len)
      simp only [hlen3] at hnew
      refine ⟨_, hnew, ?_, rfl, rfl⟩
      rw [attach_to_internal_node_edges]
      apply List.mem_append_right
      simp [hlen3]
  · rw [if_neg hcond]
    have hk : knit_into_graph g target_key result priv ref_seq_len params =
        some (attach_to_internal_node g target_key priv result
          (tp.div.getD 0 +
            calculate_branch_length sp.right.nuc_muts g.divergence_units
              ref_seq_len)) := by
      simp only [knit_into_graph, hget, Option.some_bind, hgreedy, hroot,
        Bool.false_eq_true, or_self, if_false, hsplit, Option.map_some',
        Option.some_bind]
      rw [if_neg hcond]
    have hnew := attach_to_internal_node_get_node_new g target_key priv result
      (tp.div.getD 0 +
        calculate_branch_length sp.right.nuc_muts g.divergence_units ref_seq_len)
    refine ⟨_, hk, attach_to_internal_node_length _ _ _ _ _, _, hnew, ?_, rfl, rfl⟩
    rw [attach_to_internal_node_edges]
    simp

/-- The sample-outputs fixture used by the placement witnesses. -/
def exampleResult : NextcladeOutputs :=
  { index := 0, seq_name := "sample", nearest_node_id := 1
    private_nuc_mutations :=
      { private_substitutions := examplePriv.nuc_muts, private_deletions := []
        total_private_substitutions := 1 }
    private_aa_mutations := [] }

/-- C3 witness: knitting the sample at the fixture's leaf target succeeds
(and, by the theorem, splices an internal node since the target is a leaf). -/
theorem knit_into_graph_c3_witness :
    (knit_into_graph exampleGraph2 1 exampleResult examplePriv 1
      { without_greedy_tree_builder := false }).isSome = true := by
  have h := knit_into_graph_c3 exampleGraph2 1 exampleResult examplePriv 1
    { without_greedy_tree_builder := false }
    (examplePayload "leaf" BranchMutations.default) exampleSplit0 0
    rfl (by decide) (by decide)
    (by simp [split_muts, split_nuc_muts, split_aa_muts, BranchMutations.invert,
      BranchMutations.default, examplePriv, examplePayload, exampleSplit0])
    (by decide) (by decide)
  rw [if_pos (Or.inl (by decide))] at h
  obtain ⟨g2, hg2, _⟩ := h
  rw [hg2]
  rfl

/-! ### Batch attachment (C9) -/

/-- `graph_attach_new_node_in_place` of tree_builder.rs (lines 49-98): turn
the sample's private substitutions and deletions into a branch-mutation
bundle (deletions promoted to substitutions, amino-acid lists sorted), pick
the attachment point — the upstream nearest node when the greedy builder is
off, else the fine-tuned node — and knit the sample into the graph there. -/
def graph_attach_new_node_in_place (graph : AuspiceGraph)
    (result : NextcladeOutputs) (ref_seq_len : Nat) (params : TreeBuilderParams)
    (fuel : Nat) : Option AuspiceGraph :=
  let private_aa_mutations := result.private_aa_mutations.map fun p =>
    (p.1, List.insertionSort aaSubLe
      (p.2.private_substitutions ++ p.2.private_deletions.map AaDel.to_sub))
  let nuc_subs := result.private_nuc_mutations.private_substitutions ++
    result.private_nuc_mutations.private_deletions.map NucDel.to_sub
  let mutations_seq : BranchMutations :=
    { nuc_muts := nuc_subs, aa_muts := private_aa_mutations }
  (if params.without_greedy_tree_builder then
    some (result.nearest_node_id, mutations_seq)
  else
    finetune_nearest_node graph fuel result.nearest_node_id mutations_seq).bind
    fun nearest =>
      knit_into_graph graph nearest.1 result nearest.2 ref_seq_len params

/-- Modelled from the spec: subtree size of a node, by fuel recursion over
the node count. -/
def subtree_size (g : AuspiceGraph) : Nat → Nat → Nat
  | 0, _ => 0
  | fuel + 1, k => 1 + ((g.children_of k).map (subtree_size g fuel)).sum

/-- Modelled from the spec: the child ordering of `ladderize_tree`:
descending subtree size, ties broken by node name. -/
def ladderLe (g : AuspiceGraph) (e1 e2 : Nat × Nat) : Prop :=
  subtree_size g g.payloads.length e2.2 < subtree_size g g.payloads.length e1.2 ∨
    (subtree_size g g.payloads.length e2.2 = subtree_size g g.payloads.length e1.2 ∧
      ((g.get_node e1.2).map fun p => p.name).getD "" ≤
        ((g.get_node e2.2).map fun p => p.name).getD "")

instance (g : AuspiceGraph) : DecidableRel (ladderLe g) := fun a b => by
  unfold ladderLe
  infer_instance

/-- Modelled from the spec: `ladderize_tree` reorders the children of every
node by the ladder ordering; edges are regrouped by parent key. -/
def AuspiceGraph.ladderize_tree (g : AuspiceGraph) : Option AuspiceGraph :=
  some { g with
    edges := ((List.range g.payloads.length).map fun p =>
      List.insertionSort (ladderLe g) (g.edges.filter fun e => e.1 == p)).flatten }

/-- Modelled from the spec: `add_auspice_metadata_in_place` only touches the
Auspice meta block, which this graph model does not carry; the identity
here. -/
def add_auspice_metadata_in_place (g : AuspiceGraph) : AuspiceGraph :=
  g

/-- Modelled from the spec: the sort ordering of
`graph_attach_new_nodes_in_place` — by private substitution count ascending,
then input index ascending (the key of the source's stable `sort_by_key`,
modelled as a stable insertion sort). -/
def nextcladeOutputsKeyLe (a b : NextcladeOutputs) : Prop :=
  a.private_nuc_mutations.total_private_substitutions <
      b.private_nuc_mutations.total_private_substitutions ∨
    (a.private_nuc_mutations.total_private_substitutions =
        b.private_nuc_mutations.total_private_substitutions ∧ a.index ≤ b.index)

instance : DecidableRel nextcladeOutputsKeyLe := fun a b => by
  unfold nextcladeOutputsKeyLe
  infer_instance

instance : IsTotal NextcladeOutputs nextcladeOutputsKeyLe :=
  ⟨by intro a b; unfold nextcladeOutputsKeyLe; omega⟩

instance : IsTrans NextcladeOutputs nextcladeOutputsKeyLe :=
  ⟨by intro a b c; unfold nextcladeOutputsKeyLe; omega⟩

/-- `graph_attach_new_nodes_in_place` of tree_builder.rs (lines 21-47): sort
the batch by (private substitution count, input index), attach each sample in
that order, then ladderize and post-process metadata. -/
def graph_attach_new_nodes_in_place (graph : AuspiceGraph)
    (results : List NextcladeOutputs) (ref_seq_len : Nat)
    (params : TreeBuilderParams) (fuel : Nat) : Option AuspiceGraph :=
  let results := List.insertionSort nextcladeOutputsKeyLe results
  (results.foldlM (fun g result =>
      graph_attach_new_node_in_place g result ref_seq_len params fuel)
    graph).bind fun g =>
    g.ladderize_tree.map add_auspice_metadata_in_place

/-- A batch sample with a given private substitution count and input index. -/
def mkSample (count idx : Nat) : NextcladeOutputs :=
  { index := idx, seq_name := "", nearest_node_id := 0
    private_nuc_mutations :=
      { private_substitutions := [], private_deletions := []
        total_private_substitutions := count }
    private_aa_mutations := [] }

/-- C9: the batch attachment sorts the sample results by (private
substitution count ascending, input index ascending) — the sorted list is
ordered under that key and is a permutation of the input — and attaches them
one at a time by folding the per-sample attachment over the sorted list; for
counts [3, 1, 2, 1] at input indices [0, 1, 2, 3] the attachment order is
[1, 3, 2, 0]. -/
theorem graph_attach_order_c9 :
    (∀ results : List NextcladeOutputs,
      List.Sorted nextcladeOutputsKeyLe
        (List.insertionSort nextcladeOutputsKeyLe results) ∧
      (List.insertionSort nextcladeOutputsKeyLe results).Perm results) ∧
    (∀ (graph : AuspiceGraph) (results : List NextcladeOutputs)
        (ref_seq_len : Nat) (params : TreeBuilderParams) (fuel : Nat),
      graph_attach_new_nodes_in_place graph results ref_seq_len params fuel =
        ((List.insertionSort nextcladeOutputsKeyLe results).foldlM
            (fun g result =>
              graph_attach_new_node_in_place g result ref_seq_len params fuel)
            graph).bind fun g =>
          g.ladderize_tree.map add_auspice_metadata_in_place) ∧
    ((List.insertionSort nextcladeOutputsKeyLe
        [mkSample 3 0, mkSample 1 1, mkSample 2 2, mkSample 1 3]).map
      fun r => r.index) = [1, 3, 2, 0] := by
  refine ⟨fun results => ⟨List.sorted_insertionSort _ _,
    List.perm_insertionSort _ _⟩, fun _ _ _ _ _ => rfl, by decide⟩
